import Mathlib

/-!
Verification development for the wrpc transport crate
(`crates/transport/src/lib.rs`): a shallow embedding of the value model,
the wire codec (encode / receive), the type-directed subscription planner,
the asynchronous-value transmitter, and the client invocation race,
together with proofs of the specified properties.

Modelling conventions:
  * bytes are `Nat` (meaningful values lie below 256; encoders only
    produce such values, decoders are proved against byte-valued inputs);
  * the receiver's chunked byte stream (`payload` chained with chunks
    pulled from `rx` by `receive_at_least`) is flattened into one
    `List Nat`, which is faithful because buffering pulls whole chunks
    and every read consumes a prefix of the flattened sequence;
  * fallible operations return `Option` (error contexts carried by
    `anyhow` are collapsed);
  * `f32`/`f64` values are represented by their IEEE-754 bit patterns
    (`put_f32_le`/`get_f32_le` transport exactly these bits);
  * futures and streams are represented by the values their producers
    eventually yield (producer-side transport errors are elided).
-/

set_option maxHeartbeats 1600000
set_option maxRecDepth 8000
set_option linter.unreachableTactic false
set_option linter.unusedTactic false
set_option linter.unusedVariables false

namespace Wrpc

/-- Modelled from the spec: resource kinds of the external `wrpc-types`
crate (`Resource`), as consumed by the transport crate. `Pollable` aliases
`Future(None)`, `InputStream` aliases `Stream(Some(U8))`, `OutputStream`
and dynamic resources serialize as `String` handles; the payload of
`Dynamic` is irrelevant to the transport and elided. -/
inductive Resource where
  | Pollable
  | InputStream
  | OutputStream
  | Dynamic
deriving DecidableEq, Repr

/-- Modelled from the spec: the `Type` schema of the external `wrpc-types`
crate (`wrpc_types::Type`), exactly the variants matched by the transport
crate; `Arc` sharing is elided (it does not affect semantics). -/
inductive Ty where
  | Bool
  | U8
  | U16
  | U32
  | U64
  | S8
  | S16
  | S32
  | S64
  | Float32
  | Float64
  | Char
  | String
  | List (t : Ty)
  | Record (ts : List Ty)
  | Tuple (ts : List Ty)
  | Variant (cases : List (Option Ty))
  | Enum
  | Option (t : Ty)
  | Result (ok err : Option Ty)
  | Flags
  | Future (t : Option Ty)
  | Stream (t : Option Ty)
  | Resource (r : Resource)

/-- Transport subject, modelled as the path of child indices taken from
the root; `Subject::child` derivation is list extension, which is
deterministic and injective per parent as the spec requires. -/
abbrev Subject := List (Option Nat)

/-- Models `Subject::child(&self, i: Option<u32>)`. -/
def Subject.child (s : Subject) (i : Option Nat) : Subject := s ++ [i]

namespace leb128

/-- Models `leb128::write::unsigned`: low seven bits first, continuation
bit `0x80` on every byte but the last. -/
def writeUnsigned (n : Nat) : List Nat :=
  if n < 128 then [n] else (n % 128 + 128) :: writeUnsigned (n / 128)
decreasing_by exact Nat.div_lt_self (by omega) (by omega)

/-- Models `leb128::read::unsigned` fused with the chunk-pulling loop of
`receive_leb128_unsigned`: bytes are taken one at a time until one without
the continuation bit, an exhausted input is an error (unexpected end of
stream), and the crate's 64-bit overflow check rejects any byte other than
`0x00`/`0x01` at shift 63. -/
def readUnsignedAux : List Nat → Nat → Nat → Option (Nat × List Nat)
  | [], _, _ => none
  | b :: rest, shift, result =>
    if shift = 63 ∧ b ≠ 0 ∧ b ≠ 1 then none
    else
      let result := result + b % 128 * 2 ^ shift
      if b < 128 then some (result, rest)
      else readUnsignedAux rest (shift + 7) result

/-- Models `receive_leb128_unsigned`. -/
def readUnsigned (input : List Nat) : Option (Nat × List Nat) :=
  readUnsignedAux input 0 0

/-- Models `leb128::write::signed` on `i64`: arithmetic shifts are floor
divisions, the low byte of a negative value is its two's complement
residue (`Int` `%` is `emod`, giving the representative in `[0, 256)`). -/
def writeSigned (val : Int) : List Nat :=
  let byte := (val % 256).toNat
  let val' := val / 64
  if val' = 0 ∨ val' = -1 then [byte % 128]
  else (byte % 128 + 128) :: writeSigned (val' / 2)
termination_by (if 0 ≤ val then val else -1 - val).toNat
decreasing_by
  rename_i h
  simp only [not_or] at h
  split <;> split <;> omega

/-- Two's-complement reading of a 64-bit pattern, as an `i64` value. -/
def toSigned64 (p : Nat) : Int :=
  if p < 2 ^ 63 then (p : Int) else (p : Int) - 2 ^ 64

/-- Models `leb128::read::signed` fused with the chunk-pulling loop of
`receive_leb128_signed`. The accumulator is the `i64` bit pattern
(`result |= low_bits << shift` with silent 64-bit wrapping, which the `%`
by `2 ^ 64` mirrors); on the final byte the crate sign-extends when fewer
than 64 bits were read and bit 6 of that byte is set. -/
def readSignedAux : List Nat → Nat → Nat → Option (Int × List Nat)
  | [], _, _ => none
  | b :: rest, shift, result =>
    if shift = 63 ∧ b ≠ 0x00 ∧ b ≠ 0x7f then none
    else
      let result := (result + b % 128 * 2 ^ shift) % 2 ^ 64
      let shift' := shift + 7
      if b < 128 then
        let result :=
          if shift' < 64 ∧ b / 64 % 2 = 1 then
            (result + (2 ^ 64 - 2 ^ shift')) % 2 ^ 64
          else result
        some (toSigned64 result, rest)
      else readSignedAux rest shift' result

/-- Models `receive_leb128_signed`. -/
def readSigned (input : List Nat) : Option (Int × List Nat) :=
  readSignedAux input 0 0

end leb128

/-- Little-endian byte serialization of the low `w * 8` bits of `bits`;
models `put_u32_le`-style writes of IEEE-754 bit patterns
(`put_f32_le` / `put_f64_le`). -/
def leBytes : Nat → Nat → List Nat
  | 0, _ => []
  | w + 1, bits => bits % 256 :: leBytes w (bits / 256)

/-- Little-endian reading of a byte list into a bit pattern; models
`get_f32_le` / `get_f64_le` on the buffered bytes. -/
def leWord : List Nat → Nat
  | [] => 0
  | b :: rest => b % 256 + 256 * leWord rest

/-- Continuation-byte test of UTF-8 (`0x80 ..= 0xBF`). -/
def utf8Cont (c : Nat) : Bool := 0x80 ≤ c && c ≤ 0xBF

/-- UTF-8 validity of a byte sequence, as decided by
`String::from_utf8` in the string decoder. -/
def utf8Valid : List Nat → Bool
  | [] => true
  | b :: rest =>
    if b < 0x80 then utf8Valid rest
    else if b < 0xC2 then false
    else if b < 0xE0 then
      match rest with
      | c1 :: rest => utf8Cont c1 && utf8Valid rest
      | [] => false
    else if b < 0xF0 then
      match rest with
      | c1 :: c2 :: rest =>
        (if b == 0xE0 then decide (0xA0 ≤ c1 ∧ c1 ≤ 0xBF)
         else if b == 0xED then decide (0x80 ≤ c1 ∧ c1 ≤ 0x9F)
         else utf8Cont c1) && utf8Cont c2 && utf8Valid rest
      | _ => false
    else if b < 0xF5 then
      match rest with
      | c1 :: c2 :: c3 :: rest =>
        (if b == 0xF0 then decide (0x90 ≤ c1 ∧ c1 ≤ 0xBF)
         else if b == 0xF4 then decide (0x80 ≤ c1 ∧ c1 ≤ 0x8F)
         else utf8Cont c1) && utf8Cont c2 && utf8Cont c3 && utf8Valid rest
      | _ => false
    else false

/-- Unicode scalar value test, as decided by `char::from_u32`. -/
def charValid (c : Nat) : Bool :=
  decide (c < 0x110000 ∧ ¬ (0xD800 ≤ c ∧ c < 0xE000))

mutual
/-- Models the transport `Value` enum. `Future` carries the result of
`poll_immediate` on the producer: `pending = false` means the producer is
already ready with the carried optional value; `pending = true` means it
is still pending and will eventually yield the carried optional value
(producer errors are elided). `Stream` carries the sequence of items the
producer will eventually yield (`none` items being the valueless marker
of `Stream<()>`), `Float32`/`Float64` their IEEE-754 bit patterns, and
`String` the UTF-8 bytes of the Rust string. -/
inductive Value where
  | Bool (b : Bool)
  | U8 (n : Nat)
  | U16 (n : Nat)
  | U32 (n : Nat)
  | U64 (n : Nat)
  | S8 (i : Int)
  | S16 (i : Int)
  | S32 (i : Int)
  | S64 (i : Int)
  | Float32 (bits : Nat)
  | Float64 (bits : Nat)
  | Char (c : Nat)
  | String (s : List Nat)
  | List (vs : List Value)
  | Record (vs : List Value)
  | Tuple (vs : List Value)
  | Variant (discriminant : Nat) (nested : Option Value)
  | Enum (discriminant : Nat)
  | Option (v : Option Value)
  | ResultOk (v : Option Value)
  | ResultErr (v : Option Value)
  | Flags (v : Nat)
  | Future (pending : Bool) (v : Option Value)
  | Stream (items : List (Option Value))
end

mutual
/-- Models the transport `AsyncValue` enum: the parts of a value that are
transmitted out of band after the primary payload. `Future` and `Stream`
carry what their producers eventually yield, as in `Value`. -/
inductive AsyncValue where
  | List (nested : List (Option AsyncValue))
  | Record (nested : List (Option AsyncValue))
  | Tuple (nested : List (Option AsyncValue))
  | Variant (discriminant : Nat) (nested : AsyncValue)
  | Option (nested : AsyncValue)
  | ResultOk (nested : AsyncValue)
  | ResultErr (nested : AsyncValue)
  | Future (v : Option Value)
  | Stream (items : List (Option Value))
end

/-- Models the transport `AsyncSubscription<T>` tree of nested
subscriptions; `T` is the subscribed stream type of the leaves. -/
inductive AsyncSubscription (T : Type) where
  | List (sub : AsyncSubscription T)
  | Record (subs : List (Option (AsyncSubscription T)))
  | Tuple (subs : List (Option (AsyncSubscription T)))
  | Variant (subs : List (Option (AsyncSubscription T)))
  | Option (sub : AsyncSubscription T)
  | Result (ok err : Option (AsyncSubscription T))
  | Future (subscriber : T) (nested : Option (AsyncSubscription T))
  | Stream (subscriber : T) (nested : Option (AsyncSubscription T))

/-- Models the transport `AsyncSubscriptionDemux<T>` type. Its
`TryFrom<AsyncSubscription<T>>` conversion fails on every arm, so no
value of it is ever constructed by the live code paths. -/
inductive AsyncSubscriptionDemux (T : Type) where
  | List (sub : AsyncSubscription T)
  | Stream (element : Option (AsyncSubscription T))
           (endSub : Option (AsyncSubscription T))

/-- Models `impl TryFrom<AsyncSubscription<T>> for AsyncSubscriptionDemux<T>`:
every arm fails (demultiplexing lists is not supported yet, demultiplexing
streams is not supported yet, and other shapes are a type mismatch). -/
def demuxSubscription {T : Type} : AsyncSubscription T → Option (AsyncSubscriptionDemux T)
  | .List _ => none
  | .Stream _ _ => none
  | _ => none

/-- Models `AsyncSubscription::try_unwrap_list`: a `List` node is
demultiplexed (which always fails), any other shape is a mismatch. -/
def try_unwrap_list {T : Type} :
    AsyncSubscription T → Option (AsyncSubscriptionDemux T)
  | .List sub => demuxSubscription sub
  | _ => none

/-- Models `AsyncSubscription::try_unwrap_record`. -/
def try_unwrap_record {T : Type} :
    AsyncSubscription T → Option (List (Option (AsyncSubscription T)))
  | .Record subs => some subs
  | _ => none

/-- Models `AsyncSubscription::try_unwrap_tuple`. -/
def try_unwrap_tuple {T : Type} :
    AsyncSubscription T → Option (List (Option (AsyncSubscription T)))
  | .Tuple subs => some subs
  | _ => none

/-- Models `AsyncSubscription::try_unwrap_variant`. -/
def try_unwrap_variant {T : Type} :
    AsyncSubscription T → Option (List (Option (AsyncSubscription T)))
  | .Variant subs => some subs
  | _ => none

/-- Models `AsyncSubscription::try_unwrap_option`. -/
def try_unwrap_option {T : Type} :
    AsyncSubscription T → Option (AsyncSubscription T)
  | .Option sub => some sub
  | _ => none

/-- Models `AsyncSubscription::try_unwrap_result`. -/
def try_unwrap_result {T : Type} :
    AsyncSubscription T → Option (Option (AsyncSubscription T) × Option (AsyncSubscription T))
  | .Result ok err => some (ok, err)
  | _ => none

/-- Models `AsyncSubscription::try_unwrap_future`. -/
def try_unwrap_future {T : Type} :
    AsyncSubscription T → Option (T × Option (AsyncSubscription T))
  | .Future subscriber nested => some (subscriber, nested)
  | _ => none

/-- Models `AsyncSubscription::try_unwrap_stream`: the nested subscription
is demultiplexed, so the unwrap fails whenever a nested subscription is
present. -/
def try_unwrap_stream {T : Type} :
    AsyncSubscription T → Option (T × Option (AsyncSubscriptionDemux T))
  | .Stream subscriber nested =>
    match nested with
    | none => some (subscriber, none)
    | some sub =>
      match demuxSubscription sub with
      | some d => some (subscriber, some d)
      | none => none
  | _ => none

/-- Models `AsyncSubscriptionDemux::select`, which is `unreachable!()` in
the source: since `demuxSubscription` fails on every input, no
demultiplexer value ever reaches a call of `select`; the `none` result
here is arbitrary and never observed on a live path. -/
def demuxSelect {T : Type}
    (_d : AsyncSubscriptionDemux T) (_i : Nat) : Option (AsyncSubscription T) :=
  none


mutual
/-- Models `impl Encode for Value` (`Value::encode`): the bytes appended
to the payload buffer, paired with the returned asynchronous value tree
(`None` when the value is fully synchronous). Scalars defer to the
`EncodeSync` impls; a ready future writes header `1` followed by the
inline value; a pending future writes header `0` and hands the producer
to the async tree; a stream always writes header `0` and hands the
producer to the async tree. -/
def encode : Value → List Nat × Option AsyncValue
  | .Bool b => ([if b then 1 else 0], none)
  | .U8 n => ([n], none)
  | .U16 n => (leb128.writeUnsigned n, none)
  | .U32 n => (leb128.writeUnsigned n, none)
  | .U64 n => (leb128.writeUnsigned n, none)
  | .S8 i => ([(i % 256).toNat], none)
  | .S16 i => (leb128.writeSigned i, none)
  | .S32 i => (leb128.writeSigned i, none)
  | .S64 i => (leb128.writeSigned i, none)
  | .Float32 bits => (leBytes 4 bits, none)
  | .Float64 bits => (leBytes 8 bits, none)
  | .Char c => (leb128.writeUnsigned c, none)
  | .String s => (leb128.writeUnsigned s.length ++ s, none)
  | .List vs =>
    let (bytes, txs) := encodeSeq vs
    (leb128.writeUnsigned vs.length ++ bytes,
     if txs.any Option.isSome then some (.List txs) else none)
  | .Record vs =>
    let (bytes, txs) := encodeSeq vs
    (bytes, if txs.any Option.isSome then some (.Record txs) else none)
  | .Tuple vs =>
    let (bytes, txs) := encodeSeq vs
    (bytes, if txs.any Option.isSome then some (.Tuple txs) else none)
  | .Variant discriminant none =>
    (leb128.writeUnsigned discriminant, none)
  | .Variant discriminant (some v) =>
    let (bytes, tx) := encode v
    (leb128.writeUnsigned discriminant ++ bytes,
     tx.map (fun nested => .Variant discriminant nested))
  | .Enum d => (leb128.writeUnsigned d, none)
  | .Option none => ([0], none)
  | .Option (some v) =>
    let (bytes, tx) := encode v
    (1 :: bytes, tx.map .Option)
  | .ResultOk none => ([0], none)
  | .ResultOk (some v) =>
    let (bytes, tx) := encode v
    (0 :: bytes, tx.map .ResultOk)
  | .ResultErr none => ([1], none)
  | .ResultErr (some v) =>
    let (bytes, tx) := encode v
    (1 :: bytes, tx.map .ResultErr)
  | .Flags v => (leb128.writeUnsigned v, none)
  | .Future false none => ([1], none)
  | .Future false (some v) =>
    let (bytes, tx) := encode v
    (1 :: bytes, tx)
  | .Future true v => ([0], some (.Future v))
  | .Stream items => ([0], some (.Stream items))

/-- Element-by-element encoding of a compound value's children, as done
by the `Record`/`Tuple`/`List` arms of `Value::encode`: the concatenated
bytes and the per-child async values in order. -/
def encodeSeq : List Value → List Nat × List (Option AsyncValue)
  | [] => ([], [])
  | v :: vs =>
    let (bytes, tx) := encode v
    let (bytesRest, txs) := encodeSeq vs
    (bytes ++ bytesRest, tx :: txs)
end


/-- Receiver-side subscribed byte stream: the chunk sequence the
subscription's subject will deliver. -/
abbrev Chunks := List (List Nat)

/-- Receiver-side subscription tree. -/
abbrev RSub := AsyncSubscription Chunks

/-- Flattening of a chunked byte stream; reads through
`receive_at_least` depend only on this flattened sequence. -/
def flattenChunks (c : Chunks) : List Nat := c.flatten

/-- Two's-complement reading of a byte as an `i8` value (`get_i8`). -/
def toSigned8 (b : Nat) : Int :=
  if b % 256 < 128 then (b % 256 : Int) else (b % 256 : Int) - 256

mutual
/-- Termination measure on types for the decoder and the subscription
planner; the `Resource` sizes dominate the aliases they delegate to
(`Future(None)`, `Stream(Some(U8))`, `String`). -/
def tsize : Ty → Nat
  | .List t => tsize t + 2
  | .Record ts => tsizeList ts + 2
  | .Tuple ts => tsizeList ts + 2
  | .Variant cs => tsizeCases cs + 2
  | .Option t => tsize t + 2
  | .Result ok err => osize ok + osize err + 2
  | .Future t => osize t + 2
  | .Stream t => osize t + 2
  | .Resource .Pollable => 3
  | .Resource .InputStream => 6
  | .Resource .OutputStream => 2
  | .Resource .Dynamic => 2
  | _ => 1

/-- Size of an optional type. -/
def osize : Option Ty → Nat
  | none => 0
  | some t => tsize t + 1

/-- Size of a type list. -/
def tsizeList : List Ty → Nat
  | [] => 0
  | t :: ts => tsize t + tsizeList ts + 1

/-- Size of a variant case list. -/
def tsizeCases : List (Option Ty) → Nat
  | [] => 0
  | c :: cs => osize c + tsizeCases cs + 1
end

theorem tsize_of_getCase :
    ∀ (cs : List (Option Ty)) (d : Nat) (t : Ty),
      cs[d]? = some (some t) → tsize t < tsizeCases cs := by
  intro cs
  induction cs with
  | nil => intro d t h; simp at h
  | cons c cs ih =>
    intro d t h
    cases d with
    | zero =>
      simp at h
      subst h
      simp [tsizeCases, osize]
      omega
    | succ d =>
      simp at h
      have := ih d t h
      simp [tsizeCases]
      omega

mutual
/-- Models `impl ReceiveContext<Type> for Value`
(`Value::receive_context`): type-directed decoding of one value from the
flattened byte input, returning the value and the leftover bytes, or
`none` on any decode error. The subscription argument mirrors the Rust
`sub: Option<AsyncSubscription<T>>`. -/
def receiveContext (ty : Ty) (input : List Nat) (sub : Option RSub) :
    Option (Value × List Nat) :=
  match ty with
  | .Bool =>
    -- bool::receive: buffer one byte, then `get_u8() == 1`
    match input with
    | [] => none
    | b :: rest => some (.Bool (b == 1), rest)
  | .U8 =>
    match input with
    | [] => none
    | b :: rest => some (.U8 b, rest)
  | .U16 =>
    match leb128.readUnsigned input with
    | none => none
    | some (v, rest) => if v < 2 ^ 16 then some (.U16 v, rest) else none
  | .U32 =>
    match leb128.readUnsigned input with
    | none => none
    | some (v, rest) => if v < 2 ^ 32 then some (.U32 v, rest) else none
  | .U64 =>
    match leb128.readUnsigned input with
    | none => none
    | some (v, rest) => some (.U64 v, rest)
  | .S8 =>
    match input with
    | [] => none
    | b :: rest => some (.S8 (toSigned8 b), rest)
  | .S16 =>
    match leb128.readSigned input with
    | none => none
    | some (v, rest) =>
      if -(2 ^ 15) ≤ v ∧ v < 2 ^ 15 then some (.S16 v, rest) else none
  | .S32 =>
    match leb128.readSigned input with
    | none => none
    | some (v, rest) =>
      if -(2 ^ 31) ≤ v ∧ v < 2 ^ 31 then some (.S32 v, rest) else none
  | .S64 =>
    match leb128.readSigned input with
    | none => none
    | some (v, rest) => some (.S64 v, rest)
  | .Float32 =>
    -- f32::receive demands 8 bytes buffered (`receive_at_least(.., 8)`)
    -- but then consumes only the 4 read by `get_f32_le`
    if 8 ≤ input.length then
      some (.Float32 (leWord (input.take 4)), input.drop 4)
    else none
  | .Float64 =>
    if 8 ≤ input.length then
      some (.Float64 (leWord (input.take 8)), input.drop 8)
    else none
  | .Char =>
    match leb128.readUnsigned input with
    | none => none
    | some (v, rest) =>
      if v < 2 ^ 32 then
        if charValid v then some (.Char v, rest) else none
      else none
  | .String =>
    match leb128.readUnsigned input with
    | none => none
    | some (len, rest) =>
      if len ≤ rest.length then
        let s := rest.take len
        if utf8Valid s then some (.String s, rest.drop len) else none
      else none
  | .List t =>
    -- receive_list_context: the subscription is demultiplexed first,
    -- which fails whenever one is present
    match sub with
    | none => receiveListBody t input none
    | some s =>
      match try_unwrap_list s with
      | none => none
      | some d => receiveListBody t input (some d)
  | .Record ts =>
    match (match sub with
           | none => some []
           | some s =>
             match try_unwrap_record s with
             | none => none
             | some subs => some subs) with
    | none => none
    | some subs =>
      match receiveFields ts input subs with
      | none => none
      | some (fields, rest) => some (.Record fields, rest)
  | .Tuple ts =>
    match (match sub with
           | none => some []
           | some s =>
             match try_unwrap_tuple s with
             | none => none
             | some subs => some subs) with
    | none => none
    | some subs =>
      match receiveFields ts input subs with
      | none => none
      | some (els, rest) => some (.Tuple els, rest)
  | .Variant cases =>
    match leb128.readUnsigned input with
    | none => none
    | some (d, rest) =>
      if d < 2 ^ 32 then
        match hcase : cases[d]? with
        | none => none
        | some case =>
          match (match sub with
                 | none => some none
                 | some s =>
                   match try_unwrap_variant s with
                   | none => none
                   | some subs => some (subs.getD d none)) with
          | none => none
          | some caseSub =>
            match case with
            | none => some (.Variant d none, rest)
            | some tyCase =>
              match receiveContext tyCase rest caseSub with
              | none => none
              | some (v, rest) => some (.Variant d (some v), rest)
      else none
  | .Enum =>
    match leb128.readUnsigned input with
    | none => none
    | some (d, rest) => if d < 2 ^ 32 then some (.Enum d, rest) else none
  | .Option t =>
    match input with
    | [] => none
    | b :: rest =>
      match b with
      | 0 => some (.Option none, rest)
      | 1 =>
        match (match sub with
               | none => some none
               | some s =>
                 match try_unwrap_option s with
                 | none => none
                 | some inner => some (some inner)) with
        | none => none
        | some osub =>
          match receiveContext t rest osub with
          | none => none
          | some (v, rest) => some (.Option (some v), rest)
      | _ => none
  | .Result okT errT =>
    match (match sub with
           | none => some (none, none)
           | some s =>
             match try_unwrap_result s with
             | none => none
             | some subs => some subs) with
    | none => none
    | some (okSub, errSub) =>
      match input with
      | [] => none
      | b :: rest =>
        match b with
        | 0 =>
          match okT with
          | none => some (.ResultOk none, rest)
          | some t =>
            match receiveContext t rest okSub with
            | none => none
            | some (v, rest) => some (.ResultOk (some v), rest)
        | 1 =>
          match errT with
          | none => some (.ResultErr none, rest)
          | some t =>
            match receiveContext t rest errSub with
            | none => none
            | some (v, rest) => some (.ResultErr (some v), rest)
        | _ => none
  | .Flags =>
    match leb128.readUnsigned input with
    | none => none
    | some (v, rest) => some (.Flags v, rest)
  | .Future t =>
    match sub with
    | none => none
    | some s =>
      match try_unwrap_future s with
      | none => none
      | some (subscriber, nested) =>
        match input with
        | [] => none
        | b :: rest =>
          match b, t with
          | 0, none =>
            -- pending unit future: polling later reads one chunk from the
            -- subscriber and requires it to be empty, yielding `None`
            some (.Future true none, rest)
          | 0, some t =>
            -- pending future: polling later decodes the nested value from
            -- the subscriber stream (producer-side errors elided)
            let ev :=
              match receiveContext t (flattenChunks subscriber) nested with
              | some (v, _) => some v
              | none => none
            some (.Future true ev, rest)
          | 1, none => some (.Future false none, rest)
          | 1, some t =>
            match receiveContext t rest nested with
            | none => none
            | some (v, rest) => some (.Future false (some v), rest)
          | _, _ => none
  | .Stream t =>
    match sub with
    | none => none
    | some s =>
      match try_unwrap_stream s with
      | none => none
      | some (subscriber, dsub) =>
        match input with
        | [] => none
        | b :: rest =>
          match b with
          | 0 =>
            -- background producer loop over the subscriber stream; the
            -- fuel bound covers it because every item consumes at least
            -- its framing byte (a trailing error item is elided)
            let bytes := flattenChunks subscriber
            let items :=
              match receiveStreamItems t (bytes.length + 1) bytes dsub with
              | some items => items
              | none => []
            some (.Stream items, rest)
          | 1 =>
            match t with
            | none => some (.Stream [none], rest)
            | some t =>
              match receiveContext t rest
                  (dsub.bind (fun d => demuxSelect d 0)) with
              | none => none
              | some (v, rest) => some (.Stream [some v], rest)
          | _ =>
            -- the header byte is chained back and parsed as the LEB128
            -- length of an inline bulk of elements
            match leb128.readUnsigned (b :: rest) with
            | none => none
            | some (len, rest) =>
              match t with
              | none => some (.Stream [], rest)
              | some t =>
                match receiveListElements t len rest dsub with
                | none => none
                | some (els, rest) => some (.Stream (els.map some), rest)
  | .Resource .Pollable => receiveContext (.Future none) input sub
  | .Resource .InputStream => receiveContext (.Stream (some .U8)) input sub
  | .Resource .OutputStream => receiveContext .String input sub
  | .Resource .Dynamic => receiveContext .String input sub
termination_by (tsize ty, 0, 0)
decreasing_by
  all_goals simp_wf
  all_goals first
    | (apply Prod.Lex.left
       simp only [tsize, osize, tsizeList, tsizeCases]
       all_goals omega)
    | (apply Prod.Lex.left
       have := tsize_of_getCase _ _ _ hcase
       simp only [tsize, osize, tsizeList, tsizeCases] at *
       all_goals omega)
    | (apply Prod.Lex.right; apply Prod.Lex.left; omega)
    | (apply Prod.Lex.right; apply Prod.Lex.right; omega)
    | omega

/-- Body of `receive_list_context` after the subscription unwrap: the
LEB128 list header (checked to fit `u32`) followed by that many
elements. -/
def receiveListBody (t : Ty) (input : List Nat)
    (dsub : Option (AsyncSubscriptionDemux Chunks)) :
    Option (Value × List Nat) :=
  match leb128.readUnsigned input with
  | none => none
  | some (len, rest) =>
    if len < 2 ^ 32 then
      match receiveListElements t len rest dsub with
      | none => none
      | some (els, rest) => some (.List els, rest)
    else none
termination_by (tsize t + 1, 1, 0)
decreasing_by
  all_goals simp_wf
  all_goals first
    | (apply Prod.Lex.left
       simp only [tsize, osize, tsizeList, tsizeCases]
       all_goals omega)
    | (apply Prod.Lex.left
       have := tsize_of_getCase _ _ _ hcase
       simp only [tsize, osize, tsizeList, tsizeCases] at *
       all_goals omega)
    | (apply Prod.Lex.right; apply Prod.Lex.left; omega)
    | (apply Prod.Lex.right; apply Prod.Lex.right; omega)
    | omega

/-- Element loop shared by `receive_list_context` and the inline-bulk
stream arm: `n` elements of type `t` decoded left to right. The
per-element subscription is `sub.select(i)`, which is unreachable in the
source (no demultiplexer value is ever constructed), so the item index is
irrelevant and dropped. -/
def receiveListElements (t : Ty) (n : Nat) (input : List Nat)
    (dsub : Option (AsyncSubscriptionDemux Chunks)) :
    Option (List Value × List Nat) :=
  match n with
  | 0 => some ([], input)
  | n + 1 =>
    match receiveContext t input (dsub.bind (fun d => demuxSelect d 0)) with
    | none => none
    | some (el, rest) =>
      match receiveListElements t n rest dsub with
      | none => none
      | some (els, rest') => some (el :: els, rest')
termination_by (tsize t + 1, 0, n)
decreasing_by
  all_goals simp_wf
  all_goals first
    | (apply Prod.Lex.left
       simp only [tsize, osize, tsizeList, tsizeCases]
       all_goals omega)
    | (apply Prod.Lex.left
       have := tsize_of_getCase _ _ _ hcase
       simp only [tsize, osize, tsizeList, tsizeCases] at *
       all_goals omega)
    | (apply Prod.Lex.right; apply Prod.Lex.left; omega)
    | (apply Prod.Lex.right; apply Prod.Lex.right; omega)
    | omega

/-- Field loop of the `Record`/`Tuple` arms of `Value::receive_context`
(and of `receive_tuple_context`): fields decoded left to right, each
taking its positional subscription from the unwrapped vector. -/
def receiveFields (tys : List Ty) (input : List Nat)
    (subs : List (Option RSub)) : Option (List Value × List Nat) :=
  match tys with
  | [] => some ([], input)
  | t :: tys =>
    match receiveContext t input (subs.headD none) with
    | none => none
    | some (v, rest) =>
      match receiveFields tys rest subs.tail with
      | none => none
      | some (vs, rest') => some (v :: vs, rest')
termination_by (tsizeList tys + 1, 0, 0)
decreasing_by
  all_goals simp_wf
  all_goals first
    | (apply Prod.Lex.left
       simp only [tsize, osize, tsizeList, tsizeCases]
       all_goals omega)
    | (apply Prod.Lex.left
       have := tsize_of_getCase _ _ _ hcase
       simp only [tsize, osize, tsizeList, tsizeCases] at *
       all_goals omega)
    | (apply Prod.Lex.right; apply Prod.Lex.left; omega)
    | (apply Prod.Lex.right; apply Prod.Lex.right; omega)
    | omega

/-- Models the background producer loop of a pending stream
(`receive_stream_item_context` iterated): per item one framing byte
(`0` end of stream, `1` an item, whose value is decoded when the stream
has an element type), until the end marker. Fuel decreases once per item;
with fuel exceeding the input length it never runs out before the input
does. -/
def receiveStreamItems (t : Option Ty) (fuel : Nat) (input : List Nat)
    (dsub : Option (AsyncSubscriptionDemux Chunks)) :
    Option (List (Option Value)) :=
  match fuel with
  | 0 => none
  | fuel + 1 =>
    match input with
    | [] => none
    | b :: rest =>
      match b, t with
      | 0, _ => some []
      | 1, none =>
        match receiveStreamItems none fuel rest dsub with
        | none => none
        | some items => some (none :: items)
      | 1, some t =>
        match receiveContext t rest (dsub.bind (fun d => demuxSelect d 0)) with
        | none => none
        | some (v, rest) =>
          match receiveStreamItems (some t) fuel rest dsub with
          | none => none
          | some items => some (some v :: items)
      | _, _ => none
termination_by (osize t + 1, 0, fuel)
decreasing_by
  all_goals simp_wf
  all_goals first
    | (apply Prod.Lex.left
       simp only [tsize, osize, tsizeList, tsizeCases]
       all_goals omega)
    | (apply Prod.Lex.left
       have := tsize_of_getCase _ _ _ hcase
       simp only [tsize, osize, tsizeList, tsizeCases] at *
       all_goals omega)
    | (apply Prod.Lex.right; apply Prod.Lex.left; omega)
    | (apply Prod.Lex.right; apply Prod.Lex.right; omega)
    | omega
end


/-- Models `receive_stream_item` element decoding at `E = u8` iterated as
the background producer loop of the typed stream decoder: per item one
framing byte (`0` end of stream, `1` one `u8` element), until the end
marker; fuel exceeding the input length never runs out first. -/
def streamItemsTypedU8 : Nat → List Nat → Option (List Nat)
  | 0, _ => none
  | fuel + 1, input =>
    match input with
    | [] => none
    | b :: rest =>
      match b with
      | 0 => some []
      | 1 =>
        match rest with
        | [] => none
        | el :: rest =>
          match streamItemsTypedU8 fuel rest with
          | none => none
          | some items => some (el :: items)
      | _ => none

/-- Bulk element loop of the typed stream decoder at `E = u8`. -/
def elementsTypedU8 : Nat → List Nat → Option (List Nat × List Nat)
  | 0, input => some ([], input)
  | n + 1, input =>
    match input with
    | [] => none
    | el :: rest =>
      match elementsTypedU8 n rest with
      | none => none
      | some (els, rest') => some (el :: els, rest')

/-- Models `impl Receive for Box<dyn Stream<Item = Result<E>>>` at
`E = u8` (the typed stream decoder, distinct from the `Value` stream
arm): header `0` spawns the producer loop on the subscriber; header `1`
decodes one inline element and then only buffers one further byte
(`receive_at_least(payload, rx, 1)`) without consuming or checking it;
any other header byte is chained back as a LEB128 bulk length, the
elements are decoded and a terminating byte is read and required to be
`0` (`ensure!(payload.get_u8() == 0)`; `get_u8` on an exhausted buffer
panics, modelled as failure). Returns the stream's eventual item list
and the leftover bytes. -/
def receiveStreamTypedU8 (input : List Nat) (sub : Option RSub) :
    Option (List Nat × List Nat) :=
  match sub with
  | none => none
  | some s =>
    match try_unwrap_stream s with
    | none => none
    | some (subscriber, _dsub) =>
      match input with
      | [] => none
      | b :: rest =>
        match b with
        | 0 =>
          let bytes := flattenChunks subscriber
          let items :=
            match streamItemsTypedU8 (bytes.length + 1) bytes with
            | some items => items
            | none => []
          some (items, rest)
        | 1 =>
          match rest with
          | [] => none
          | el :: rest =>
            if 1 ≤ rest.length then some ([el], rest) else none
        | _ =>
          match leb128.readUnsigned (b :: rest) with
          | none => none
          | some (len, rest) =>
            if len < 2 ^ 64 then
              match elementsTypedU8 len rest with
              | none => none
              | some (els, rest) =>
                match rest with
                | 0 :: rest => some (els, rest)
                | _ => none
            else none

mutual
/-- Models `Subscriber::subscribe_async` over an ideal subscriber whose
`subscribe` always succeeds and yields the subscribed subject itself as
the stream, so subscription leaves record their subjects. -/
def subscribe_async (subject : Subject) (ty : Ty) :
    Option (AsyncSubscription Subject) :=
  match ty with
  | .Bool | .U8 | .U16 | .U32 | .U64 | .S8 | .S16 | .S32 | .S64
  | .Float32 | .Float64 | .Char | .String | .Enum | .Flags => none
  | .List t =>
    match subscribe_async (subject.child none) t with
    | none => none
    | some sub => some (.List sub)
  | .Record ts =>
    let subs := subscribeIter subject 0 ts
    if subs.any Option.isSome then some (.Record subs) else none
  | .Tuple ts =>
    let subs := subscribeIter subject 0 ts
    if subs.any Option.isSome then some (.Tuple subs) else none
  | .Variant cs =>
    let subs := subscribeIterOpt subject 0 cs
    if subs.any Option.isSome then some (.Variant subs) else none
  | .Option t =>
    match subscribe_async (subject.child (some 1)) t with
    | none => none
    | some sub => some (.Option sub)
  | .Result ok err =>
    -- net effect of `subscribe_async_sized_optional` on the two-element
    -- array `[ok, err]`, subscribing `ok` on child 0 and `err` on child 1
    let okSub :=
      match ok with
      | none => none
      | some t => subscribe_async (subject.child (some 0)) t
    let errSub :=
      match err with
      | none => none
      | some t => subscribe_async (subject.child (some 1)) t
    if okSub.isSome || errSub.isSome then some (.Result okSub errSub)
    else none
  | .Future none => some (.Future subject none)
  | .Future (some t) =>
    some (.Future subject (subscribe_async (subject.child (some 0)) t))
  | .Stream none => some (.Stream subject none)
  | .Stream (some t) =>
    some (.Stream subject (subscribe_async (subject.child none) t))
  | .Resource .Pollable => subscribe_async subject (.Future none)
  | .Resource .InputStream => subscribe_async subject (.Stream (some .U8))
  | .Resource .OutputStream => none
  | .Resource .Dynamic => none
termination_by (tsize ty, 0)
decreasing_by
  all_goals simp_wf
  all_goals first
    | (apply Prod.Lex.left
       simp only [tsize, osize, tsizeList, tsizeCases]
       all_goals omega)
    | (apply Prod.Lex.right; omega)
    | omega

/-- Models `subscribe_async_iter`: element `j` subscribes on
`subject.child(Some(j))`, the running index being `i` plus the position. -/
def subscribeIter (subject : Subject) (i : Nat) :
    List Ty → List (Option (AsyncSubscription Subject))
  | [] => []
  | t :: ts =>
    subscribe_async (subject.child (some i)) t :: subscribeIter subject (i + 1) ts
termination_by ts => (tsizeList ts + 1, 0)
decreasing_by
  all_goals simp_wf
  all_goals first
    | (apply Prod.Lex.left
       simp only [tsize, osize, tsizeList, tsizeCases]
       all_goals omega)
    | (apply Prod.Lex.right; omega)
    | omega

/-- Models `subscribe_async_iter_optional`: absent cases contribute no
subscription. -/
def subscribeIterOpt (subject : Subject) (i : Nat) :
    List (Option Ty) → List (Option (AsyncSubscription Subject))
  | [] => []
  | c :: cs =>
    (match c with
     | none => none
     | some t => subscribe_async (subject.child (some i)) t) ::
      subscribeIterOpt subject (i + 1) cs
termination_by cs => (tsizeCases cs + 1, 0)
decreasing_by
  all_goals simp_wf
  all_goals first
    | (apply Prod.Lex.left
       simp only [tsize, osize, tsizeList, tsizeCases]
       all_goals omega)
    | (apply Prod.Lex.right; omega)
    | omega
end

mutual
/-- Async-skeleton test of a type, as the claims state it: whether the
type contains a `Future`/`Stream` node, with `Resource::Pollable` read as
`Future(None)`, `Resource::InputStream` as `Stream(Some(U8))`, and
`Resource::OutputStream`/dynamic resources as non-async. -/
def tyAsync : Ty → Bool
  | .Future _ => true
  | .Stream _ => true
  | .Resource .Pollable => true
  | .Resource .InputStream => true
  | .Resource .OutputStream => false
  | .Resource .Dynamic => false
  | .List t => tyAsync t
  | .Option t => tyAsync t
  | .Record ts => tyAsyncList ts
  | .Tuple ts => tyAsyncList ts
  | .Variant cs => tyAsyncCases cs
  | .Result ok err => tyAsyncOpt ok || tyAsyncOpt err
  | _ => false

/-- Async-skeleton test of an optional type. -/
def tyAsyncOpt : Option Ty → Bool
  | none => false
  | some t => tyAsync t

/-- Async-skeleton test of a type list. -/
def tyAsyncList : List Ty → Bool
  | [] => false
  | t :: ts => tyAsync t || tyAsyncList ts

/-- Async-skeleton test of a variant case list. -/
def tyAsyncCases : List (Option Ty) → Bool
  | [] => false
  | c :: cs => tyAsyncOpt c || tyAsyncCases cs
end

mutual
/-- Whether a subscription tree contains a `Future` or `Stream` node,
i.e. a descendant async leaf in the sense of the spec's invariant. -/
def hasLeaf {T : Type} : AsyncSubscription T → Bool
  | .Future _ _ => true
  | .Stream _ _ => true
  | .List s => hasLeaf s
  | .Option s => hasLeaf s
  | .Record subs => anyLeaf subs
  | .Tuple subs => anyLeaf subs
  | .Variant subs => anyLeaf subs
  | .Result ok err => optLeaf ok || optLeaf err

/-- Leaf test of an optional subscription. -/
def optLeaf {T : Type} : Option (AsyncSubscription T) → Bool
  | none => false
  | some s => hasLeaf s

/-- Leaf test of a subscription vector. -/
def anyLeaf {T : Type} : List (Option (AsyncSubscription T)) → Bool
  | [] => false
  | s :: subs => optLeaf s || anyLeaf subs
end

mutual
/-- Pruning invariant of subscription trees: every compound node keeps at
least one present child, recursively; combined with `hasLeaf` this says
every node of the tree has a descendant `Future`/`Stream` leaf. -/
def pruned {T : Type} : AsyncSubscription T → Bool
  | .Future _ nested => optPruned nested
  | .Stream _ nested => optPruned nested
  | .List s => pruned s
  | .Option s => pruned s
  | .Record subs => subs.any Option.isSome && allPruned subs
  | .Tuple subs => subs.any Option.isSome && allPruned subs
  | .Variant subs => subs.any Option.isSome && allPruned subs
  | .Result ok err =>
    (ok.isSome || err.isSome) && optPruned ok && optPruned err

/-- Pruning invariant of an optional subscription. -/
def optPruned {T : Type} : Option (AsyncSubscription T) → Bool
  | none => true
  | some s => pruned s

/-- Pruning invariant of a subscription vector. -/
def allPruned {T : Type} : List (Option (AsyncSubscription T)) → Bool
  | [] => true
  | s :: subs => optPruned s && allPruned subs
end


mutual
/-- Structural size of a value (termination measure for the
transmitter). -/
def vsize : Value → Nat
  | .List vs => vsizeList vs + 2
  | .Record vs => vsizeList vs + 2
  | .Tuple vs => vsizeList vs + 2
  | .Variant _ v => vsizeOpt v + 2
  | .Option v => vsizeOpt v + 2
  | .ResultOk v => vsizeOpt v + 2
  | .ResultErr v => vsizeOpt v + 2
  | .Future _ v => vsizeOpt v + 2
  | .Stream items => vsizeItems items + 2
  | _ => 1

/-- Size of an optional value. -/
def vsizeOpt : Option Value → Nat
  | none => 0
  | some v => vsize v + 1

/-- Size of a value list. -/
def vsizeList : List Value → Nat
  | [] => 0
  | v :: vs => vsize v + vsizeList vs + 2

/-- Size of a stream item list. -/
def vsizeItems : List (Option Value) → Nat
  | [] => 0
  | v :: vs => vsizeOpt v + vsizeItems vs + 2
end

mutual
/-- Structural size of an async value tree. -/
def asize : AsyncValue → Nat
  | .List xs => asizeList xs + 2
  | .Record xs => asizeList xs + 2
  | .Tuple xs => asizeList xs + 2
  | .Variant _ nested => asize nested + 1
  | .Option nested => asize nested + 1
  | .ResultOk nested => asize nested + 1
  | .ResultErr nested => asize nested + 1
  | .Future v => vsizeOpt v + 2
  | .Stream items => vsizeItems items + 2

/-- Size of an optional async value. -/
def asizeOpt : Option AsyncValue → Nat
  | none => 0
  | some a => asize a + 1

/-- Size of an async value vector. -/
def asizeList : List (Option AsyncValue) → Nat
  | [] => 0
  | x :: xs => asizeOpt x + asizeList xs + 1
end

theorem vsize_pos : ∀ v, 1 ≤ vsize v := by
  intro v
  cases v <;> simp only [vsize] <;> omega

/-- The async tree returned by `encode` is no larger than the value
encoded (the transmitter's recursion through `encode` therefore
terminates). -/
theorem encode_asize :
    ∀ N, (∀ v, vsize v ≤ N → asizeOpt (encode v).2 ≤ vsize v + 1) ∧
      (∀ vs, vsizeList vs ≤ N → asizeList (encodeSeq vs).2 ≤ vsizeList vs) := by
  intro N
  induction N with
  | zero =>
    constructor
    · intro v h
      have := vsize_pos v
      omega
    · intro vs h
      cases vs with
      | nil => simp [encodeSeq, asizeList]
      | cons v vs =>
        have := vsize_pos v
        simp only [vsizeList] at h
        omega
  | succ N ih =>
    obtain ⟨ihA, ihB⟩ := ih
    have B : ∀ vs, vsizeList vs ≤ N + 1 →
        asizeList (encodeSeq vs).2 ≤ vsizeList vs := by
      intro vs
      induction vs with
      | nil =>
        intro _
        simp [encodeSeq, asizeList]
      | cons v vs ihvs =>
        intro h
        simp only [vsizeList] at h ⊢
        have h1 : vsize v ≤ N := by omega
        have h2 := ihA v h1
        have h3 := ihvs (by omega)
        simp only [encodeSeq]
        rcases hEv : encode v with ⟨bv, txv⟩
        rcases hEs : encodeSeq vs with ⟨bs, txs⟩
        simp only [asizeList]
        rw [hEv] at h2
        rw [hEs] at h3
        simp only at h2 h3
        omega
    refine ⟨?_, B⟩
    intro v h
    cases v with
    | Bool b => simp [encode, asizeOpt, vsize]
    | U8 n => simp [encode, asizeOpt, vsize]
    | U16 n => simp [encode, asizeOpt, vsize]
    | U32 n => simp [encode, asizeOpt, vsize]
    | U64 n => simp [encode, asizeOpt, vsize]
    | S8 i => simp [encode, asizeOpt, vsize]
    | S16 i => simp [encode, asizeOpt, vsize]
    | S32 i => simp [encode, asizeOpt, vsize]
    | S64 i => simp [encode, asizeOpt, vsize]
    | Float32 b => simp [encode, asizeOpt, vsize]
    | Float64 b => simp [encode, asizeOpt, vsize]
    | Char c => simp [encode, asizeOpt, vsize]
    | String s => simp [encode, asizeOpt, vsize]
    | Enum d => simp [encode, asizeOpt, vsize]
    | Flags n => simp [encode, asizeOpt, vsize]
    | List vs =>
      simp only [vsize] at h ⊢
      have hB := B vs (by omega)
      simp only [encode]
      rcases hEs : encodeSeq vs with ⟨bs, txs⟩
      rw [hEs] at hB
      simp only at hB
      split
      · simp only [asizeOpt, asize]
        omega
      · simp only [asizeOpt]
        omega
    | Record vs =>
      simp only [vsize] at h ⊢
      have hB := B vs (by omega)
      simp only [encode]
      rcases hEs : encodeSeq vs with ⟨bs, txs⟩
      rw [hEs] at hB
      simp only at hB
      split
      · simp only [asizeOpt, asize]
        omega
      · simp only [asizeOpt]
        omega
    | Tuple vs =>
      simp only [vsize] at h ⊢
      have hB := B vs (by omega)
      simp only [encode]
      rcases hEs : encodeSeq vs with ⟨bs, txs⟩
      rw [hEs] at hB
      simp only at hB
      split
      · simp only [asizeOpt, asize]
        omega
      · simp only [asizeOpt]
        omega
    | Variant d nested =>
      cases nested with
      | none => simp [encode, asizeOpt, vsize]
      | some v =>
        simp only [vsize, vsizeOpt] at h ⊢
        have h2 := ihA v (by omega)
        simp only [encode]
        rcases hEv : encode v with ⟨bv, txv⟩
        rw [hEv] at h2
        simp only at h2
        cases txv with
        | none => simp [asizeOpt]
        | some a =>
          simp only [Option.map, asizeOpt, asize]
          simp only [asizeOpt] at h2
          omega
    | Option nested =>
      cases nested with
      | none => simp [encode, asizeOpt, vsize]
      | some v =>
        simp only [vsize, vsizeOpt] at h ⊢
        have h2 := ihA v (by omega)
        simp only [encode]
        rcases hEv : encode v with ⟨bv, txv⟩
        rw [hEv] at h2
        simp only at h2
        cases txv with
        | none => simp [asizeOpt]
        | some a =>
          simp only [Option.map, asizeOpt, asize]
          simp only [asizeOpt] at h2
          omega
    | ResultOk nested =>
      cases nested with
      | none => simp [encode, asizeOpt, vsize]
      | some v =>
        simp only [vsize, vsizeOpt] at h ⊢
        have h2 := ihA v (by omega)
        simp only [encode]
        rcases hEv : encode v with ⟨bv, txv⟩
        rw [hEv] at h2
        simp only at h2
        cases txv with
        | none => simp [asizeOpt]
        | some a =>
          simp only [Option.map, asizeOpt, asize]
          simp only [asizeOpt] at h2
          omega
    | ResultErr nested =>
      cases nested with
      | none => simp [encode, asizeOpt, vsize]
      | some v =>
        simp only [vsize, vsizeOpt] at h ⊢
        have h2 := ihA v (by omega)
        simp only [encode]
        rcases hEv : encode v with ⟨bv, txv⟩
        rw [hEv] at h2
        simp only at h2
        cases txv with
        | none => simp [asizeOpt]
        | some a =>
          simp only [Option.map, asizeOpt, asize]
          simp only [asizeOpt] at h2
          omega
    | Future pending v =>
      cases pending with
      | true =>
        simp [encode, asizeOpt, asize, vsize]
      | false =>
        cases v with
        | none => simp [encode, asizeOpt, vsize]
        | some v =>
          simp only [vsize, vsizeOpt] at h ⊢
          have h2 := ihA v (by omega)
          simp only [encode]
          rcases hEv : encode v with ⟨bv, txv⟩
          rw [hEv] at h2
          simp only at h2
          simp only [hEv]
          simp
          omega
    | Stream items =>
      simp [encode, asizeOpt, asize, vsize]

/-- Async tree of an encoded value, bounded by the value's size. -/
theorem encode_tx_asize {v : Value} {tx : AsyncValue}
    (h : (encode v).2 = some tx) : asize tx ≤ vsize v := by
  have h2 := (encode_asize (vsize v)).1 v (Nat.le_refl _)
  rw [h] at h2
  simp only [asizeOpt] at h2
  omega


mutual
/-- Models `Transmitter::transmit_async`: the publishes
(subject, payload) the walk performs. Concurrent branches (`try_join!`,
`FuturesUnordered`) are serialized, nested transmissions listed before
the publish of the node itself and elements in order; the claims concern
only which subjects receive which payloads. -/
def transmit_async (subject : Subject) (value : AsyncValue) :
    List (Subject × List Nat) :=
  match value with
  | .List nested => transmitElems subject 0 nested
  | .Record nested => transmitElems subject 0 nested
  | .Tuple nested => transmitElems subject 0 nested
  | .Variant discriminant nested =>
    transmit_async (subject.child (some discriminant)) nested
  | .Option nested => transmit_async (subject.child (some 1)) nested
  | .ResultOk nested => transmit_async (subject.child (some 0)) nested
  | .ResultErr nested => transmit_async (subject.child (some 1)) nested
  | .Future v =>
    match v with
    | some v =>
      -- await the producer; it yielded `Some(v)`: encode `v` into a
      -- fresh buffer, publish it on the subject, and transmit the
      -- nested async parts on `child(Some(0))`
      (match htx : (encode v).2 with
       | some tx => transmit_async (subject.child (some 0)) tx
       | none => []) ++ [(subject, (encode v).1)]
    | none =>
      -- the producer yielded `None`: publish an empty payload
      [(subject, [])]
  | .Stream items => transmitStreamItems subject 0 items
termination_by (asize value, 0)
decreasing_by
  all_goals simp_wf
  all_goals first
    | (apply Prod.Lex.left
       simp only [asize, asizeOpt, asizeList, vsizeOpt, vsizeItems]
       all_goals omega)
    | (apply Prod.Lex.left
       have := encode_tx_asize htx
       simp only [asize, asizeOpt, asizeList, vsizeOpt, vsizeItems]
       all_goals omega)
    | (apply Prod.Lex.right; omega)
    | omega

/-- Element walk of the `List`/`Record`/`Tuple` arms of `transmit_async`:
the present child at position `i` is transmitted on
`subject.child(Some(i))`. -/
def transmitElems (subject : Subject) (i : Nat) :
    List (Option AsyncValue) → List (Subject × List Nat)
  | [] => []
  | none :: rest => transmitElems subject (i + 1) rest
  | some v :: rest =>
    transmit_async (subject.child (some i)) v ++
      transmitElems subject (i + 1) rest
termination_by xs => (asizeList xs + 1, 0)
decreasing_by
  all_goals simp_wf
  all_goals first
    | (apply Prod.Lex.left
       simp only [asize, asizeOpt, asizeList, vsizeOpt, vsizeItems]
       all_goals omega)
    | (apply Prod.Lex.right; omega)
    | omega

/-- Models the `Stream` arm loop of `transmit_async`: item `i` publishes
a framed payload on the subject (`[1]` alone for a valueless item,
`1` followed by the encoded element otherwise, with the element's nested
async parts transmitted on `child(Some(i)).child(Some(0))`); the end of
the stream publishes `[0]`. -/
def transmitStreamItems (subject : Subject) (i : Nat) :
    List (Option Value) → List (Subject × List Nat)
  | [] => [(subject, [0])]
  | none :: rest => (subject, [1]) :: transmitStreamItems subject (i + 1) rest
  | some v :: rest =>
    (match htx : (encode v).2 with
     | some tx => transmit_async ((subject.child (some i)).child (some 0)) tx
     | none => []) ++
      (subject, 1 :: (encode v).1) :: transmitStreamItems subject (i + 1) rest
termination_by items => (vsizeItems items + 1, 0)
decreasing_by
  all_goals simp_wf
  all_goals first
    | (apply Prod.Lex.left
       simp only [asize, asizeOpt, asizeList, vsizeOpt, vsizeItems]
       all_goals omega)
    | (apply Prod.Lex.left
       have := encode_tx_asize htx
       simp only [asize, asizeOpt, asizeList, vsizeOpt, vsizeItems]
       all_goals omega)
    | (apply Prod.Lex.right; omega)
    | omega
end

/-- Models `String::receive` (used via `receive_sync` by the error arm of
the invocation race): LEB128 length, that many bytes buffered and copied,
then UTF-8 validation. -/
def receiveString (input : List Nat) : Option (List Nat × List Nat) :=
  match leb128.readUnsigned input with
  | none => none
  | some (len, rest) =>
    if len ≤ rest.length then
      let s := rest.take len
      if utf8Valid s then some (s, rest.drop len) else none
    else none

/-- Models `ReceiveContext::receive_tuple_context`: the tuple
subscription is unwrapped and the element types are decoded left to
right against the primary payload. -/
def receive_tuple_context (tys : List Ty) (input : List Nat)
    (sub : Option RSub) : Option (List Value × List Nat) :=
  match (match sub with
         | none => some []
         | some s =>
           match try_unwrap_tuple s with
           | none => none
           | some subs => some subs) with
  | none => none
  | some subs => receiveFields tys input subs

/-- Which arm of the `select!` race in `invoke_static`/`invoke_dynamic`
fires first: the transmission-failure signal, the first payload on the
result subject, or the first payload on the error subject. -/
inductive RaceWinner where
  | txFailed
  | result
  | err

/-- Models the invocation race of `Client::invoke_dynamic` (the
`invoke_static` race is identical in its error arm): given which arm
fires first, the full byte sequences that the result and error subjects
deliver, and the pre-built result subscription, the call either returns
the decoded result values or fails; a failure carries `some` decoded
error string (as its UTF-8 bytes) exactly when the error subject won and
its payload decoded as a string, and `none` for every other failure
(transmission failure, result decode error, or error-string decode
error). -/
def invokeOutcome (winner : RaceWinner) (resultTys : List Ty)
    (resultData : List Nat) (resultSubs : Option RSub)
    (errorData : List Nat) : Except (Option (List Nat)) (List Value) :=
  match winner with
  | .txFailed => .error none
  | .result =>
    match receive_tuple_context resultTys resultData resultSubs with
    | none => .error none
    | some (vals, _) => .ok vals
  | .err =>
    match receiveString errorData with
    | none => .error none
    | some (s, _) => .error (some s)


mutual
/-- Well-typedness of a value at a type, mirroring the Rust
representation invariants of `Value` against `Type`: machine-integer
ranges, `char` scalar validity, UTF-8 strings, IEEE-754 bit-pattern
widths, list lengths representable in the wire format's `u32` list
header (`receive_list_header`), `u32` discriminants, matching variant
cases, and matching result payload presence. Values of
`Resource::OutputStream`/dynamic resource type are string handles;
values of `Resource::Pollable`/`Resource::InputStream` type are the
aliased future/stream values. -/
def wellTyped : Value → Ty → Bool
  | .Bool _, .Bool => true
  | .U8 n, .U8 => decide (n < 2 ^ 8)
  | .U16 n, .U16 => decide (n < 2 ^ 16)
  | .U32 n, .U32 => decide (n < 2 ^ 32)
  | .U64 n, .U64 => decide (n < 2 ^ 64)
  | .S8 i, .S8 => decide (-(2 ^ 7) ≤ i ∧ i < 2 ^ 7)
  | .S16 i, .S16 => decide (-(2 ^ 15) ≤ i ∧ i < 2 ^ 15)
  | .S32 i, .S32 => decide (-(2 ^ 31) ≤ i ∧ i < 2 ^ 31)
  | .S64 i, .S64 => decide (-(2 ^ 63) ≤ i ∧ i < 2 ^ 63)
  | .Float32 bits, .Float32 => decide (bits < 2 ^ 32)
  | .Float64 bits, .Float64 => decide (bits < 2 ^ 64)
  | .Char c, .Char => charValid c
  | .String s, .String => utf8Valid s && decide (s.length < 2 ^ 64)
  | .List vs, .List t => wellTypedSeq vs t && decide (vs.length < 2 ^ 32)
  | .Record vs, .Record ts => wellTypedFields vs ts
  | .Tuple vs, .Tuple ts => wellTypedFields vs ts
  | .Variant d v, .Variant cases =>
    decide (d < 2 ^ 32) && wellTypedCase cases[d]? v
  | .Enum d, .Enum => decide (d < 2 ^ 32)
  | .Option v, .Option t => wellTypedInner v t
  | .ResultOk v, .Result ok _ => wellTypedPayload v ok
  | .ResultErr v, .Result _ err => wellTypedPayload v err
  | .Flags n, .Flags => decide (n < 2 ^ 64)
  | .Future _ v, .Future t => wellTypedPayload v t
  | .Stream items, .Stream t => wellTypedItems items t
  | .Future _ v, .Resource .Pollable => v.isNone
  | .Stream items, .Resource .InputStream => wellTypedItems items (some .U8)
  | .String s, .Resource .OutputStream =>
    utf8Valid s && decide (s.length < 2 ^ 64)
  | .String s, .Resource .Dynamic =>
    utf8Valid s && decide (s.length < 2 ^ 64)
  | _, _ => false

/-- Typing of a variant payload against the selected case of the variant
type (absent case type means no payload). -/
def wellTypedCase : Option (Option Ty) → Option Value → Bool
  | some none, none => true
  | some (some t), some v => wellTyped v t
  | _, _ => false

/-- Typing of an `option` payload: an absent value is always allowed. -/
def wellTypedInner : Option Value → Ty → Bool
  | none, _ => true
  | some v, t => wellTyped v t

/-- Typing of an optional payload against an optional type: the payload
is present exactly when the type is. -/
def wellTypedPayload : Option Value → Option Ty → Bool
  | none, o => o.isNone
  | some v, some t => wellTyped v t
  | some _, none => false

/-- Well-typedness of list elements at one element type. -/
def wellTypedSeq : List Value → Ty → Bool
  | [], _ => true
  | v :: vs, t => wellTyped v t && wellTypedSeq vs t

/-- Well-typedness of record/tuple fields at a type list. -/
def wellTypedFields : List Value → List Ty → Bool
  | [], [] => true
  | v :: vs, t :: ts => wellTyped v t && wellTypedFields vs ts
  | _, _ => false

/-- Well-typedness of stream items at an optional element type. -/
def wellTypedItems : List (Option Value) → Option Ty → Bool
  | [], _ => true
  | none :: items, none => wellTypedItems items none
  | some v :: items, some t => wellTyped v t && wellTypedItems items (some t)
  | _, _ => false
end

mutual
/-- Whether a type has no `Future`/`Stream` descendants, the premise of
the sync round-trip law; `Resource::Pollable`/`Resource::InputStream`
alias futures/streams and are therefore not sync. -/
def syncTy : Ty → Bool
  | .Future _ => false
  | .Stream _ => false
  | .Resource .Pollable => false
  | .Resource .InputStream => false
  | .Resource .OutputStream => true
  | .Resource .Dynamic => true
  | .List t => syncTy t
  | .Option t => syncTy t
  | .Record ts => syncTyList ts
  | .Tuple ts => syncTyList ts
  | .Variant cs => syncTyCases cs
  | .Result ok err => syncTyOpt ok && syncTyOpt err
  | _ => true

/-- Sync test of an optional type. -/
def syncTyOpt : Option Ty → Bool
  | none => true
  | some t => syncTy t

/-- Sync test of a type list. -/
def syncTyList : List Ty → Bool
  | [] => true
  | t :: ts => syncTy t && syncTyList ts

/-- Sync test of a variant case list. -/
def syncTyCases : List (Option Ty) → Bool
  | [] => true
  | c :: cs => syncTyOpt c && syncTyCases cs
end

mutual
/-- Whether a type has no `Float32` descendant (the `f32` decoder
over-demands buffered bytes, see the `Float32` arm of
`receiveContext`). -/
def noF32 : Ty → Bool
  | .Float32 => false
  | .List t => noF32 t
  | .Option t => noF32 t
  | .Record ts => noF32List ts
  | .Tuple ts => noF32List ts
  | .Variant cs => noF32Cases cs
  | .Result ok err => noF32Opt ok && noF32Opt err
  | .Future t => noF32Opt t
  | .Stream t => noF32Opt t
  | _ => true

/-- Float32-freedom of an optional type. -/
def noF32Opt : Option Ty → Bool
  | none => true
  | some t => noF32 t

/-- Float32-freedom of a type list. -/
def noF32List : List Ty → Bool
  | [] => true
  | t :: ts => noF32 t && noF32List ts

/-- Float32-freedom of a variant case list. -/
def noF32Cases : List (Option Ty) → Bool
  | [] => true
  | c :: cs => noF32Opt c && noF32Cases cs
end


namespace leb128

theorem readUnsignedAux_writeUnsigned :
    ∀ n shift acc rest, shift % 7 = 0 → shift ≤ 63 → n < 2 ^ (64 - shift) →
      readUnsignedAux (writeUnsigned n ++ rest) shift acc =
        some (acc + n * 2 ^ shift, rest) := by
  intro n
  induction n using Nat.strong_induction_on with
  | _ n ih =>
    intro shift acc rest h7 h63 hbound
    by_cases hn : n < 128
    · rw [writeUnsigned, if_pos hn]
      rw [List.cons_append, List.nil_append, readUnsignedAux]
      have hchk : ¬ (shift = 63 ∧ n ≠ 0 ∧ n ≠ 1) := by
        rintro ⟨h63eq, hne0, hne1⟩
        subst h63eq
        norm_num at hbound
        omega
      rw [if_neg hchk, if_pos hn, Nat.mod_eq_of_lt hn]
    · push_neg at hn
      rw [writeUnsigned, if_neg (by omega)]
      rw [List.cons_append, readUnsignedAux]
      have hs : shift ≤ 56 := by
        rcases Nat.lt_or_ge shift 63 with h | h
        · omega
        · exfalso
          have : shift = 63 := by omega
          subst this
          norm_num at hbound
          omega
      have hchk : ¬ (shift = 63 ∧ n % 128 + 128 ≠ 0 ∧ n % 128 + 128 ≠ 1) := by
        rintro ⟨h63eq, -, -⟩
        omega
      rw [if_neg hchk, if_neg (by omega)]
      have hmod : (n % 128 + 128) % 128 = n % 128 := by omega
      rw [hmod]
      have hdiv : n / 128 < 2 ^ (64 - (shift + 7)) := by
        have hexp : 64 - shift = (64 - (shift + 7)) + 7 := by omega
        rw [hexp, pow_add] at hbound
        rw [Nat.div_lt_iff_lt_mul (by norm_num : 0 < 128)]
        calc n < 2 ^ (64 - (shift + 7)) * 2 ^ 7 := hbound
          _ = 2 ^ (64 - (shift + 7)) * 128 := by norm_num
      have := ih (n / 128) (Nat.div_lt_self (by omega) (by omega))
        (shift + 7) (acc + n % 128 * 2 ^ shift) rest (by omega) (by omega) hdiv
      rw [this]
      congr 2
      have hdm := Nat.div_add_mod n 128
      calc acc + n % 128 * 2 ^ shift + n / 128 * 2 ^ (shift + 7)
          = acc + (n % 128 + n / 128 * 128) * 2 ^ shift := by
            rw [pow_add]
            ring
        _ = acc + n * 2 ^ shift := by
            congr 2
            omega

theorem readUnsigned_writeUnsigned (n : Nat) (rest : List Nat)
    (h : n < 2 ^ 64) :
    readUnsigned (writeUnsigned n ++ rest) = some (n, rest) := by
  have := readUnsignedAux_writeUnsigned n 0 0 rest (by norm_num) (by norm_num)
    (by simpa using h)
  simpa using this

end leb128


theorem int_emod_mul (a m q : Int) (hm : 0 < m) (hq : 0 < q) :
    a % (m * q) = a % m + m * (a / m % q) := by
  have h1 : a = a % m + m * (a / m % q) + m * q * (a / m / q) := by
    have e1 := Int.emod_add_ediv a m
    have e2 := Int.emod_add_ediv (a / m) q
    calc a = a % m + m * (a / m) := e1.symm
      _ = a % m + m * (a / m % q + q * (a / m / q)) := by rw [e2]
      _ = a % m + m * (a / m % q) + m * q * (a / m / q) := by ring
  conv_lhs => rw [h1]
  rw [Int.add_mul_emod_self_left]
  apply Int.emod_eq_of_lt
  · have hn1 := Int.emod_nonneg a (by omega : m ≠ 0)
    have hn2 := Int.emod_nonneg (a / m) (by omega : q ≠ 0)
    have h2 : 0 ≤ m * (a / m % q) := mul_nonneg (by omega) (by omega)
    omega
  · have hb1 : a % m < m := Int.emod_lt_of_pos a hm
    have hb2 : a / m % q < q := Int.emod_lt_of_pos _ hq
    have hb3 : a / m % q ≤ q - 1 := by omega
    have h4 : m * (a / m % q) ≤ m * (q - 1) :=
      mul_le_mul_of_nonneg_left hb3 (by omega)
    nlinarith

namespace leb128

theorem writeSigned_done (val : Int) (h : val / 64 = 0 ∨ val / 64 = -1) :
    writeSigned val = [(val % 128).toNat] := by
  rw [writeSigned]
  simp only [h, if_pos]
  congr 1
  omega

theorem readSignedAux_writeSigned_done (val : Int) (shift acc : Nat)
    (rest : List Nat)
    (hlo64 : -64 ≤ val) (hhi64 : val ≤ 63)
    (h7 : shift % 7 = 0) (h63 : shift ≤ 63)
    (hlo : -((2 : Int) ^ (63 - shift)) ≤ val)
    (hhi : val < (2 : Int) ^ (63 - shift))
    (hacc : acc < 2 ^ shift) :
    readSignedAux (writeSigned val ++ rest) shift acc =
      some (toSigned64 (acc + (val % (2 : Int) ^ (64 - shift)).toNat * 2 ^ shift),
        rest) := by
  rw [writeSigned_done val (by omega), List.cons_append, List.nil_append,
    readSignedAux]
  have hb : (val % 128).toNat < 128 := by omega
  by_cases h63eq : shift = 63
  · -- at shift 63 the bounds force val into the last two's-complement bit
    subst h63eq
    norm_num at hlo hhi
    have hv : val = 0 ∨ val = -1 := by omega
    rcases hv with hv | hv
    · subst hv
      norm_num
      exact congrArg toSigned64 (by omega)
    · subst hv
      norm_num
      refine ⟨by rfl, ?_⟩
      exact congrArg toSigned64 (by omega)
  · -- shift ≤ 56
    have h56 : shift ≤ 56 := by omega
    rw [if_neg (by omega), if_pos hb]
    simp only [Nat.mod_eq_of_lt hb]
    have hX0 : 0 < 2 ^ shift := Nat.pos_pow_of_pos shift (by norm_num)
    have hX56 : (2 : Nat) ^ shift ≤ 2 ^ 56 := Nat.pow_le_pow_right (by norm_num) h56
    have hXM : (2 : Nat) ^ (64 - shift) * 2 ^ shift = 2 ^ 64 := by
      rw [← pow_add]
      congr 1
      omega
    have hMge : (256 : Nat) ≤ 2 ^ (64 - shift) := by
      calc (256 : Nat) = 2 ^ 8 := by norm_num
        _ ≤ 2 ^ (64 - shift) := Nat.pow_le_pow_right (by norm_num) (by omega)
    have hMI : ((2 : Nat) ^ (64 - shift) : Int) = (2 : Int) ^ (64 - shift) := by
      push_cast
      ring
    by_cases hneg : 0 ≤ val
    · -- nonnegative: no sign extension
      have hbval : (val % 128).toNat = val.toNat := by omega
      have hext : ¬ (shift + 7 < 64 ∧ (val % 128).toNat / 64 % 2 = 1) := by
        rintro ⟨-, hbit⟩
        omega
      rw [if_neg hext]
      have hmod : val % (2 : Int) ^ (64 - shift) = val := by
        apply Int.emod_eq_of_lt hneg
        rw [← hMI]
        calc val ≤ 63 := hhi64
          _ < ((2 : Nat) ^ (64 - shift) : Int) := by exact_mod_cast (by omega : 63 < 2 ^ (64 - shift))
      rw [hmod, hbval]
      have hsum : acc + val.toNat * 2 ^ shift < 2 ^ 64 := by
        have h1 : val.toNat * 2 ^ shift ≤ 127 * 2 ^ shift :=
          Nat.mul_le_mul_right _ (by omega)
        have h2 : (256 : Nat) * 2 ^ 56 = 2 ^ 64 := by norm_num
        omega
      rw [Nat.mod_eq_of_lt hsum]
    · -- negative: sign extension fires
      push_neg at hneg
      have hbval : (val % 128).toNat = (val + 128).toNat := by omega
      rw [if_pos (by refine ⟨by omega, ?_⟩; omega)]
      have hmod : val % (2 : Int) ^ (64 - shift) = val + (2 : Int) ^ (64 - shift) := by
        have hMbig : (256 : Int) ≤ (2 : Int) ^ (64 - shift) := by
          rw [← hMI]
          exact_mod_cast hMge
        have h2 : (val + (2 : Int) ^ (64 - shift)) % (2 : Int) ^ (64 - shift) =
            val + (2 : Int) ^ (64 - shift) :=
          Int.emod_eq_of_lt (by omega) (by omega)
        calc val % (2 : Int) ^ (64 - shift)
            = (val + (2 : Int) ^ (64 - shift) * 1) % (2 : Int) ^ (64 - shift) := by
              rw [Int.add_mul_emod_self_left]
          _ = (val + (2 : Int) ^ (64 - shift)) % (2 : Int) ^ (64 - shift) := by
              rw [mul_one]
          _ = val + (2 : Int) ^ (64 - shift) := h2
      have htN : ((val + (2 : Int) ^ (64 - shift)).toNat) =
          (2 : Nat) ^ (64 - shift) + (val + 128).toNat - 128 := by
        have hMbig : (256 : Int) ≤ (2 : Int) ^ (64 - shift) := by
          rw [← hMI]
          exact_mod_cast hMge
        rw [← hMI]
        omega
      rw [hmod, hbval, htN]
      have hinner : (acc + (val + 128).toNat * 2 ^ shift) % 2 ^ 64 =
          acc + (val + 128).toNat * 2 ^ shift := by
        apply Nat.mod_eq_of_lt
        have h1 : (val + 128).toNat * 2 ^ shift ≤ 127 * 2 ^ shift :=
          Nat.mul_le_mul_right _ (by omega)
        have h2 : (256 : Nat) * 2 ^ 56 = 2 ^ 64 := by norm_num
        omega
      rw [hinner]
      have hkey : (acc + (val + 128).toNat * 2 ^ shift + (2 ^ 64 - 2 ^ (shift + 7))) %
          2 ^ 64 = acc + ((2 : Nat) ^ (64 - shift) + (val + 128).toNat - 128) *
            2 ^ shift := by
        have h1 : (val + 128).toNat * 2 ^ shift ≤ 127 * 2 ^ shift :=
          Nat.mul_le_mul_right _ (by omega)
        have h2 : 64 * 2 ^ shift ≤ (val + 128).toNat * 2 ^ shift :=
          Nat.mul_le_mul_right _ (by omega)
        have hX7 : (2 : Nat) ^ (shift + 7) = 128 * 2 ^ shift := by
          rw [pow_add]
          ring
        have e1 : ((2 : Nat) ^ (64 - shift) + (val + 128).toNat - 128) * 2 ^ shift =
            2 ^ 64 + (val + 128).toNat * 2 ^ shift - 128 * 2 ^ shift := by
          rw [Nat.sub_mul, Nat.add_mul, hXM]
        have h128 : 128 * (2 : Nat) ^ shift ≤ 2 ^ 64 := by
          calc 128 * (2 : Nat) ^ shift ≤ 128 * 2 ^ 56 := Nat.mul_le_mul_left _ hX56
            _ ≤ 2 ^ 64 := by norm_num
        rw [hX7, e1]
        omega
      rw [hkey]

theorem readSignedAux_writeSigned :
    ∀ (M : Nat) (val : Int), (if 0 ≤ val then val else -1 - val).toNat ≤ M →
    ∀ (shift acc : Nat) (rest : List Nat),
      shift % 7 = 0 → shift ≤ 63 →
      -((2 : Int) ^ (63 - shift)) ≤ val → val < (2 : Int) ^ (63 - shift) →
      acc < 2 ^ shift →
      readSignedAux (writeSigned val ++ rest) shift acc =
        some (toSigned64 (acc + (val % (2 : Int) ^ (64 - shift)).toNat * 2 ^ shift),
          rest) := by
  intro M
  induction M using Nat.strong_induction_on with
  | _ M ih =>
    intro val hM shift acc rest h7 h63 hlo hhi hacc
    by_cases hdone : val / 64 = 0 ∨ val / 64 = -1
    · exact readSignedAux_writeSigned_done val shift acc rest (by omega) (by omega)
        h7 h63 hlo hhi hacc
    · have hw : writeSigned val =
          ((val % 256).toNat % 128 + 128) :: writeSigned (val / 64 / 2) := by
        rw [writeSigned]
        simp [hdone]
      rw [hw, List.cons_append, readSignedAux]
      have hs56 : shift ≤ 56 := by
        by_contra hc
        have h63' : shift = 63 := by omega
        subst h63'
        norm_num at hlo hhi
        omega
      rw [if_neg (by omega), if_neg (by omega)]
      have hbm : ((val % 256).toNat % 128 + 128) % 128 = (val % 128).toNat := by
        omega
      rw [hbm]
      have hX56 : (2 : Nat) ^ shift ≤ 2 ^ 56 :=
        Nat.pow_le_pow_right (by norm_num) hs56
      have hinner : (acc + (val % 128).toNat * 2 ^ shift) % 2 ^ 64 =
          acc + (val % 128).toNat * 2 ^ shift := by
        apply Nat.mod_eq_of_lt
        have h1 : (val % 128).toNat * 2 ^ shift ≤ 127 * 2 ^ shift :=
          Nat.mul_le_mul_right _ (by omega)
        have h2 : (256 : Nat) * 2 ^ 56 = 2 ^ 64 := by norm_num
        omega
      rw [hinner]
      -- bounds for the shifted remainder at shift + 7
      have hPI : (2 : Int) ^ (63 - shift) = 128 * 2 ^ (56 - shift) := by
        rw [show 63 - shift = 7 + (56 - shift) from by omega, pow_add]
        norm_num
      have hlo7 : -((2 : Int) ^ (63 - (shift + 7))) ≤ val / 64 / 2 := by
        rw [show 63 - (shift + 7) = 56 - shift from by omega]
        rw [hPI] at hlo
        omega
      have hhi7 : val / 64 / 2 < (2 : Int) ^ (63 - (shift + 7)) := by
        rw [show 63 - (shift + 7) = 56 - shift from by omega]
        rw [hPI] at hhi
        omega
      have hacc7 : acc + (val % 128).toNat * 2 ^ shift < 2 ^ (shift + 7) := by
        rw [pow_add]
        have h1 : (val % 128).toNat * 2 ^ shift ≤ 127 * 2 ^ shift :=
          Nat.mul_le_mul_right _ (by omega)
        have h2 : (2 : Nat) ^ shift * 2 ^ 7 = 128 * 2 ^ shift := by ring
        omega
      have hM0 : 1 ≤ M := by
        split at hM <;> omega
      have hMm : (if 0 ≤ val / 64 / 2 then val / 64 / 2
          else -1 - val / 64 / 2).toNat ≤ M - 1 := by
        split at hM <;> split <;> omega
      have happ := ih (M - 1) (by omega) (val / 64 / 2) hMm (shift + 7)
        (acc + (val % 128).toNat * 2 ^ shift) rest (by omega) (by omega)
        hlo7 hhi7 hacc7
      rw [happ]
      refine congrArg (fun p => some (p, rest)) (congrArg toSigned64 ?_)
      -- decompose the remainder: val mod 2^(64-shift) splits into the low
      -- seven bits and the shifted remainder of val / 128
      have hsplit := int_emod_mul val 128 ((2 : Int) ^ (64 - (shift + 7)))
        (by norm_num) (by positivity)
      have hM2 : (2 : Int) ^ (64 - shift) = 128 * 2 ^ (64 - (shift + 7)) := by
        rw [show 64 - shift = 7 + (64 - (shift + 7)) from by omega, pow_add]
        norm_num
      have hd128 : val / 64 / 2 = val / 128 := by omega
      rw [hd128] at *
      have hWnn : 0 ≤ val / 128 % (2 : Int) ^ (64 - (shift + 7)) :=
        Int.emod_nonneg _ (by positivity)
      have htN : (val % (2 : Int) ^ (64 - shift)).toNat =
          (val % 128).toNat +
            128 * (val / 128 % (2 : Int) ^ (64 - (shift + 7))).toNat := by
        rw [hM2, hsplit]
        omega
      rw [htN]
      have hX7 : (2 : Nat) ^ (shift + 7) = 128 * 2 ^ shift := by
        rw [pow_add]
        ring
      rw [hX7]
      ring

theorem readSigned_writeSigned (val : Int) (rest : List Nat)
    (hlo : -((2 : Int) ^ 63) ≤ val) (hhi : val < (2 : Int) ^ 63) :
    readSigned (writeSigned val ++ rest) = some (val, rest) := by
  have h := readSignedAux_writeSigned
    ((if 0 ≤ val then val else -1 - val).toNat) val (Nat.le_refl _) 0 0 rest
    (by norm_num) (by norm_num) (by simpa using hlo) (by simpa using hhi)
    (by norm_num)
  rw [readSigned, h]
  have e : 0 + (val % 2 ^ (64 - 0)).toNat * 2 ^ 0 = (val % 2 ^ 64).toNat := by
    norm_num
  rw [e]
  refine congrArg (fun x => some (x, rest)) ?_
  rw [toSigned64]
  rw [show ((2 : Int) ^ 64) = 18446744073709551616 from by norm_num]
  rw [show ((2 : Nat) ^ 63) = 9223372036854775808 from by norm_num]
  rw [show ((2 : Int) ^ 63) = 9223372036854775808 from by norm_num] at hlo hhi
  split <;> omega

end leb128


theorem leBytes_length (w bits : Nat) : (leBytes w bits).length = w := by
  induction w generalizing bits with
  | zero => simp [leBytes]
  | succ w ih => simp [leBytes, ih]

theorem leWord_leBytes (w bits : Nat) (h : bits < 2 ^ (8 * w)) :
    leWord (leBytes w bits) = bits := by
  induction w generalizing bits with
  | zero =>
    simp only [Nat.mul_zero, pow_zero] at h
    simp [leBytes, leWord]
    omega
  | succ w ih =>
    rw [leBytes, leWord]
    have hdiv : bits / 256 < 2 ^ (8 * w) := by
      rw [Nat.div_lt_iff_lt_mul (by norm_num : 0 < 256)]
      calc bits < 2 ^ (8 * (w + 1)) := h
        _ = 2 ^ (8 * w) * 256 := by
          rw [show 8 * (w + 1) = 8 * w + 8 from by ring, pow_add]
          norm_num
    rw [ih _ hdiv]
    omega

theorem leBytes_take_append (w bits : Nat) (rest : List Nat) :
    (leBytes w bits ++ rest).take w = leBytes w bits := by
  have h := List.take_left (leBytes w bits) rest
  rwa [leBytes_length] at h

theorem leBytes_drop_append (w bits : Nat) (rest : List Nat) :
    (leBytes w bits ++ rest).drop w = rest := by
  have h := List.drop_left (leBytes w bits) rest
  rwa [leBytes_length] at h

theorem toSigned8_roundtrip (i : Int) (h : -128 ≤ i ∧ i < 128) :
    toSigned8 ((i % 256).toNat) = i := by
  rw [toSigned8]
  split <;> omega


theorem encodeSeq_cons (v : Value) (vs : List Value) :
    encodeSeq (v :: vs) =
      ((encode v).1 ++ (encodeSeq vs).1, (encode v).2 :: (encodeSeq vs).2) := by
  rw [encodeSeq]

theorem encodeSeq_nil : encodeSeq [] = ([], []) := by
  rw [encodeSeq]

theorem tsize_mem (ts : List Ty) (t : Ty) (h : t ∈ ts) :
    tsize t ≤ tsizeList ts := by
  induction ts with
  | nil => simp at h
  | cons t2 ts ih =>
    rcases List.mem_cons.mp h with h | h
    · subst h
      rw [tsizeList]
      omega
    · have := ih h
      rw [tsizeList]
      omega

/-- Round-trip property of one type: encoding any well-typed value of a
sync type produces no async tree and decoding the bytes (followed by any
further buffered bytes, at least 4 of them when the type contains a
`Float32`) restores the value exactly, leaving the extra bytes over. -/
def RT (ty : Ty) : Prop :=
  ∀ v rest, wellTyped v ty = true → syncTy ty = true →
    (noF32 ty = true ∨ 4 ≤ rest.length) →
    (encode v).2 = none ∧
      receiveContext ty ((encode v).1 ++ rest) none = some (v, rest)

theorem rt_seq (t : Ty) (hrt : RT t) (hsync : syncTy t = true) :
    ∀ vs rest, wellTypedSeq vs t = true →
      (noF32 t = true ∨ 4 ≤ rest.length) →
      ((encodeSeq vs).2.any Option.isSome) = false ∧
      receiveListElements t vs.length ((encodeSeq vs).1 ++ rest) none =
        some (vs, rest) := by
  intro vs
  induction vs with
  | nil =>
    intro rest _ _
    constructor
    · simp [encodeSeq_nil]
    · simp [encodeSeq_nil, receiveListElements]
  | cons v vs ihv =>
    intro rest hwt hf
    rw [wellTypedSeq, Bool.and_eq_true] at hwt
    obtain ⟨hwt1, hwt2⟩ := hwt
    have hf2 : noF32 t = true ∨ 4 ≤ ((encodeSeq vs).1 ++ rest).length := by
      rcases hf with h | h
      · exact Or.inl h
      · right
        rw [List.length_append]
        omega
    obtain ⟨h1a, h1b⟩ := hrt v ((encodeSeq vs).1 ++ rest) hwt1 hsync hf2
    obtain ⟨h2a, h2b⟩ := ihv rest hwt2 hf
    rw [encodeSeq_cons]
    constructor
    · simp [h1a, h2a]
    · rw [List.length_cons, receiveListElements]
      simp only [List.append_assoc, Option.none_bind, h1b, h2b]

theorem rt_fields :
    ∀ ts : List Ty, (∀ t ∈ ts, RT t) → syncTyList ts = true →
      ∀ vs rest, wellTypedFields vs ts = true →
        (noF32List ts = true ∨ 4 ≤ rest.length) →
        ((encodeSeq vs).2.any Option.isSome) = false ∧
        receiveFields ts ((encodeSeq vs).1 ++ rest) [] = some (vs, rest) := by
  intro ts
  induction ts with
  | nil =>
    intro _ _ vs rest hwt _
    cases vs with
    | nil =>
      constructor
      · simp [encodeSeq_nil]
      · simp [encodeSeq_nil, receiveFields]
    | cons v vs => simp [wellTypedFields] at hwt
  | cons t ts ih =>
    intro hrt hsync vs rest hwt hf
    cases vs with
    | nil => simp [wellTypedFields] at hwt
    | cons v vs =>
      rw [wellTypedFields, Bool.and_eq_true] at hwt
      obtain ⟨hwt1, hwt2⟩ := hwt
      rw [syncTyList, Bool.and_eq_true] at hsync
      obtain ⟨hsync1, hsync2⟩ := hsync
      have hf1 : noF32 t = true ∨ 4 ≤ ((encodeSeq vs).1 ++ rest).length := by
        rcases hf with h | h
        · rw [noF32List, Bool.and_eq_true] at h
          exact Or.inl h.1
        · right
          rw [List.length_append]
          omega
      have hf2 : noF32List ts = true ∨ 4 ≤ rest.length := by
        rcases hf with h | h
        · rw [noF32List, Bool.and_eq_true] at h
          exact Or.inl h.2
        · exact Or.inr h
      obtain ⟨h1a, h1b⟩ := hrt t (List.mem_cons_self t ts) v
        ((encodeSeq vs).1 ++ rest) hwt1 hsync1 hf1
      obtain ⟨h2a, h2b⟩ := ih (fun t2 ht2 => hrt t2 (List.mem_cons_of_mem t ht2))
        hsync2 vs rest hwt2 hf2
      rw [encodeSeq_cons]
      constructor
      · simp [h1a, h2a]
      · rw [receiveFields]
        simp only [List.headD, List.tail, List.append_assoc, h1b, h2b]


theorem syncTy_of_getCase :
    ∀ (cs : List (Option Ty)) (d : Nat) (t : Ty),
      cs[d]? = some (some t) → syncTyCases cs = true → syncTy t = true := by
  intro cs
  induction cs with
  | nil => intro d t h _; simp at h
  | cons c cs ih =>
    intro d t h hs
    rw [syncTyCases, Bool.and_eq_true] at hs
    cases d with
    | zero =>
      simp at h
      subst h
      exact hs.1
    | succ d =>
      simp at h
      exact ih d t h hs.2

theorem noF32_of_getCase :
    ∀ (cs : List (Option Ty)) (d : Nat) (t : Ty),
      cs[d]? = some (some t) → noF32Cases cs = true → noF32 t = true := by
  intro cs
  induction cs with
  | nil => intro d t h _; simp at h
  | cons c cs ih =>
    intro d t h hs
    rw [noF32Cases, Bool.and_eq_true] at hs
    cases d with
    | zero =>
      simp at h
      subst h
      exact hs.1
    | succ d =>
      simp at h
      exact ih d t h hs.2

theorem rt_string_raw (s : List Nat) (rest : List Nat)
    (hutf : utf8Valid s = true) (hlen : s.length < 2 ^ 64) :
    receiveContext .String ((leb128.writeUnsigned s.length ++ s) ++ rest) none =
      some (.String s, rest) := by
  simp only [receiveContext]
  rw [List.append_assoc, leb128.readUnsigned_writeUnsigned _ _ hlen]
  simp only []
  rw [if_pos (by rw [List.length_append]; omega)]
  simp only [List.take_left, List.drop_left, hutf, if_pos]


theorem encode_list (vs : List Value) :
    encode (.List vs) =
      (leb128.writeUnsigned vs.length ++ (encodeSeq vs).1,
       if (encodeSeq vs).2.any Option.isSome then some (.List (encodeSeq vs).2)
       else none) := by
  rw [encode]

theorem encode_record (vs : List Value) :
    encode (.Record vs) =
      ((encodeSeq vs).1,
       if (encodeSeq vs).2.any Option.isSome then some (.Record (encodeSeq vs).2)
       else none) := by
  rw [encode]

theorem encode_tuple (vs : List Value) :
    encode (.Tuple vs) =
      ((encodeSeq vs).1,
       if (encodeSeq vs).2.any Option.isSome then some (.Tuple (encodeSeq vs).2)
       else none) := by
  rw [encode]

theorem encode_variant_some (d : Nat) (v : Value) :
    encode (.Variant d (some v)) =
      (leb128.writeUnsigned d ++ (encode v).1,
       (encode v).2.map (fun nested => .Variant d nested)) := by
  rw [encode]

theorem encode_option_some (v : Value) :
    encode (.Option (some v)) =
      (1 :: (encode v).1, (encode v).2.map .Option) := by
  rw [encode]

theorem encode_resultok_some (v : Value) :
    encode (.ResultOk (some v)) =
      (0 :: (encode v).1, (encode v).2.map .ResultOk) := by
  rw [encode]

theorem encode_resulterr_some (v : Value) :
    encode (.ResultErr (some v)) =
      (1 :: (encode v).1, (encode v).2.map .ResultErr) := by
  rw [encode]


/-- Sync round trip, per type: for every well-typed value of a type
with no `Future`/`Stream` descendants, encoding produces no async tree
and decoding the produced bytes restores the value, consuming exactly
those bytes (with the `Float32` buffered-byte proviso of `RT`). -/
theorem roundtrip_types : ∀ N ty, tsize ty ≤ N → RT ty := by
  intro N
  induction N using Nat.strong_induction_on with
  | _ N ih =>
    intro ty hsz v rest hwt hsync hf32
    have IH : ∀ ty2, tsize ty2 < tsize ty → RT ty2 := fun ty2 hlt =>
      ih (tsize ty2) (by omega) ty2 (Nat.le_refl _)
    clear ih hsz
    cases ty with
    | Bool =>
      cases v <;> simp only [wellTyped] at hwt <;>
        try exact absurd hwt Bool.false_ne_true
      case Bool b =>
        refine ⟨by simp [encode], ?_⟩
        cases b <;> simp [encode, receiveContext]
    | U8 =>
      cases v <;> simp only [wellTyped] at hwt <;>
        try exact absurd hwt Bool.false_ne_true
      case U8 n =>
        refine ⟨by simp [encode], ?_⟩
        simp [encode, receiveContext]
    | U16 =>
      cases v <;> simp only [wellTyped, decide_eq_true_eq] at hwt <;>
        try exact absurd hwt Bool.false_ne_true
      case U16 n =>
        refine ⟨by simp [encode], ?_⟩
        simp only [encode, receiveContext,
          leb128.readUnsigned_writeUnsigned n rest (by omega)]
        rw [if_pos (by omega)]
    | U32 =>
      cases v <;> simp only [wellTyped, decide_eq_true_eq] at hwt <;>
        try exact absurd hwt Bool.false_ne_true
      case U32 n =>
        refine ⟨by simp [encode], ?_⟩
        simp only [encode, receiveContext,
          leb128.readUnsigned_writeUnsigned n rest (by omega)]
        rw [if_pos (by omega)]
    | U64 =>
      cases v <;> simp only [wellTyped, decide_eq_true_eq] at hwt <;>
        try exact absurd hwt Bool.false_ne_true
      case U64 n =>
        refine ⟨by simp [encode], ?_⟩
        simp only [encode, receiveContext,
          leb128.readUnsigned_writeUnsigned n rest (by omega)]
    | S8 =>
      cases v <;> simp only [wellTyped, decide_eq_true_eq] at hwt <;>
        try exact absurd hwt Bool.false_ne_true
      case S8 i =>
        refine ⟨by simp [encode], ?_⟩
        simp only [encode, receiveContext, List.cons_append, List.nil_append]
        rw [toSigned8_roundtrip i (by omega)]
    | S16 =>
      cases v <;> simp only [wellTyped, decide_eq_true_eq] at hwt <;>
        try exact absurd hwt Bool.false_ne_true
      case S16 i =>
        refine ⟨by simp [encode], ?_⟩
        simp only [encode, receiveContext,
          leb128.readSigned_writeSigned i rest (by omega) (by omega)]
        rw [if_pos (by omega)]
    | S32 =>
      cases v <;> simp only [wellTyped, decide_eq_true_eq] at hwt <;>
        try exact absurd hwt Bool.false_ne_true
      case S32 i =>
        refine ⟨by simp [encode], ?_⟩
        simp only [encode, receiveContext,
          leb128.readSigned_writeSigned i rest (by omega) (by omega)]
        rw [if_pos (by omega)]
    | S64 =>
      cases v <;> simp only [wellTyped, decide_eq_true_eq] at hwt <;>
        try exact absurd hwt Bool.false_ne_true
      case S64 i =>
        refine ⟨by simp [encode], ?_⟩
        simp only [encode, receiveContext,
          leb128.readSigned_writeSigned i rest (by omega) (by omega)]
    | Float32 =>
      cases v <;> simp only [wellTyped, decide_eq_true_eq] at hwt <;>
        try exact absurd hwt Bool.false_ne_true
      case Float32 bits =>
        have hrest : 4 ≤ rest.length := by
          rcases hf32 with h | h
          · rw [noF32] at h
            exact absurd h Bool.false_ne_true
          · exact h
        refine ⟨by simp [encode], ?_⟩
        simp only [encode, receiveContext]
        rw [if_pos (by rw [List.length_append, leBytes_length]; omega)]
        rw [leBytes_take_append, leBytes_drop_append,
          leWord_leBytes 4 bits (by omega)]
    | Float64 =>
      cases v <;> simp only [wellTyped, decide_eq_true_eq] at hwt <;>
        try exact absurd hwt Bool.false_ne_true
      case Float64 bits =>
        refine ⟨by simp [encode], ?_⟩
        simp only [encode, receiveContext]
        rw [if_pos (by rw [List.length_append, leBytes_length]; omega)]
        rw [leBytes_take_append, leBytes_drop_append,
          leWord_leBytes 8 bits (by omega)]
    | Char =>
      cases v <;> simp only [wellTyped] at hwt <;>
        try exact absurd hwt Bool.false_ne_true
      case Char c =>
        have hc := hwt
        simp only [charValid, decide_eq_true_eq] at hc
        refine ⟨by simp [encode], ?_⟩
        simp only [encode, receiveContext,
          leb128.readUnsigned_writeUnsigned c rest (by omega)]
        rw [if_pos (by omega), if_pos hwt]
    | String =>
      cases v <;> simp only [wellTyped] at hwt <;>
        try exact absurd hwt Bool.false_ne_true
      case String str =>
        rw [Bool.and_eq_true, decide_eq_true_eq] at hwt
        refine ⟨by simp [encode], ?_⟩
        have h := rt_string_raw str rest hwt.1 hwt.2
        simpa [encode] using h
    | List t =>
      cases v <;> simp only [wellTyped] at hwt <;>
        try exact absurd hwt Bool.false_ne_true
      case List vs =>
        rw [Bool.and_eq_true, decide_eq_true_eq] at hwt
        obtain ⟨hwts, hlen⟩ := hwt
        rw [syncTy] at hsync
        have hf : noF32 t = true ∨ 4 ≤ rest.length := by
          rcases hf32 with h | h
          · rw [noF32] at h
            exact Or.inl h
          · exact Or.inr h
        have hrt := IH t (by simp only [tsize]; omega)
        obtain ⟨hany, hdec⟩ := rt_seq t hrt hsync vs rest hwts hf
        rw [encode_list]
        constructor
        · simp [hany]
        · simp only [receiveContext, receiveListBody, List.append_assoc,
            leb128.readUnsigned_writeUnsigned vs.length
              ((encodeSeq vs).1 ++ rest) (by omega)]
          rw [if_pos hlen]
          simp only [hdec]
    | Record ts =>
      cases v <;> simp only [wellTyped] at hwt <;>
        try exact absurd hwt Bool.false_ne_true
      case Record vs =>
        rw [syncTy] at hsync
        have hf : noF32List ts = true ∨ 4 ≤ rest.length := by
          rcases hf32 with h | h
          · rw [noF32] at h
            exact Or.inl h
          · exact Or.inr h
        have hrts : ∀ t2 ∈ ts, RT t2 := fun t2 ht2 =>
          IH t2 (by have := tsize_mem ts t2 ht2; simp only [tsize]; omega)
        obtain ⟨hany, hdec⟩ := rt_fields ts hrts hsync vs rest hwt hf
        rw [encode_record]
        constructor
        · simp [hany]
        · simp only [receiveContext, hdec]
    | Tuple ts =>
      cases v <;> simp only [wellTyped] at hwt <;>
        try exact absurd hwt Bool.false_ne_true
      case Tuple vs =>
        rw [syncTy] at hsync
        have hf : noF32List ts = true ∨ 4 ≤ rest.length := by
          rcases hf32 with h | h
          · rw [noF32] at h
            exact Or.inl h
          · exact Or.inr h
        have hrts : ∀ t2 ∈ ts, RT t2 := fun t2 ht2 =>
          IH t2 (by have := tsize_mem ts t2 ht2; simp only [tsize]; omega)
        obtain ⟨hany, hdec⟩ := rt_fields ts hrts hsync vs rest hwt hf
        rw [encode_tuple]
        constructor
        · simp [hany]
        · simp only [receiveContext, hdec]
    | Variant cs =>
      cases v <;> simp only [wellTyped] at hwt <;>
        try exact absurd hwt Bool.false_ne_true
      case Variant d nested =>
        rw [Bool.and_eq_true, decide_eq_true_eq] at hwt
        obtain ⟨hd32, hmatch⟩ := hwt
        rw [syncTy] at hsync
        rcases hl : cs[d]? with _ | c
        · rw [hl] at hmatch
          simp [wellTypedCase] at hmatch
        rcases c with _ | tC
        · rw [hl] at hmatch
          cases nested with
          | some _ => simp [wellTypedCase] at hmatch
          | none =>
            refine ⟨by simp [encode], ?_⟩
            simp only [encode, receiveContext,
              leb128.readUnsigned_writeUnsigned d rest (by omega)]
            rw [if_pos hd32]
            split
            · rename_i heq; rw [hl] at heq; exact absurd heq (by simp)
            · rename_i ca heq; rw [hl] at heq
              cases heq
              rfl
        · rw [hl] at hmatch
          cases nested with
          | none => simp [wellTypedCase] at hmatch
          | some v2 =>
            simp only [wellTypedCase] at hmatch
            have hrtC := IH tC (by
              have := tsize_of_getCase cs d tC hl
              simp only [tsize]
              omega)
            have hsyncC := syncTy_of_getCase cs d tC hl hsync
            have hfC : noF32 tC = true ∨ 4 ≤ rest.length := by
              rcases hf32 with h | h
              · rw [noF32] at h
                exact Or.inl (noF32_of_getCase cs d tC hl h)
              · exact Or.inr h
            obtain ⟨ha, hb⟩ := hrtC v2 rest hmatch hsyncC hfC
            rw [encode_variant_some]
            constructor
            · simp [ha]
            · simp only [receiveContext, List.append_assoc,
                leb128.readUnsigned_writeUnsigned d ((encode v2).1 ++ rest)
                  (by omega)]
              rw [if_pos hd32]
              split
              · rename_i heq; rw [hl] at heq; exact absurd heq (by simp)
              · rename_i ca heq; rw [hl] at heq
                cases heq
                simp only [hb]
    | Enum =>
      cases v <;> simp only [wellTyped, decide_eq_true_eq] at hwt <;>
        try exact absurd hwt Bool.false_ne_true
      case Enum d =>
        refine ⟨by simp [encode], ?_⟩
        simp only [encode, receiveContext,
          leb128.readUnsigned_writeUnsigned d rest (by omega)]
        rw [if_pos (by omega)]
    | Option t =>
      cases v <;> simp only [wellTyped] at hwt <;>
        try exact absurd hwt Bool.false_ne_true
      case Option nested =>
        cases nested with
        | none =>
          refine ⟨by simp [encode], ?_⟩
          simp [encode, receiveContext]
        | some v2 =>
          simp only [wellTypedInner] at hwt
          rw [syncTy] at hsync
          have hf : noF32 t = true ∨ 4 ≤ rest.length := by
            rcases hf32 with h | h
            · rw [noF32] at h
              exact Or.inl h
            · exact Or.inr h
          obtain ⟨ha, hb⟩ := IH t (by simp only [tsize]; omega) v2 rest hwt hsync hf
          rw [encode_option_some]
          constructor
          · simp [ha]
          · simp only [receiveContext, List.cons_append, hb]
    | Result ok err =>
      rw [syncTy, Bool.and_eq_true] at hsync
      obtain ⟨hsok, hserr⟩ := hsync
      have hfok : noF32Opt ok = true ∨ 4 ≤ rest.length := by
        rcases hf32 with h | h
        · rw [noF32, Bool.and_eq_true] at h
          exact Or.inl h.1
        · exact Or.inr h
      have hferr : noF32Opt err = true ∨ 4 ≤ rest.length := by
        rcases hf32 with h | h
        · rw [noF32, Bool.and_eq_true] at h
          exact Or.inl h.2
        · exact Or.inr h
      cases v <;> simp only [wellTyped] at hwt <;>
        try exact absurd hwt Bool.false_ne_true
      case ResultOk nested =>
        cases nested with
        | none =>
          cases ok with
          | some t => simp [wellTypedPayload] at hwt
          | none =>
            refine ⟨by simp [encode], ?_⟩
            simp [encode, receiveContext]
        | some v2 =>
          cases ok with
          | none => simp [wellTypedPayload] at hwt
          | some t =>
            simp only [wellTypedPayload] at hwt
            rw [noF32Opt] at hfok
            rw [syncTyOpt] at hsok
            obtain ⟨ha, hb⟩ := IH t (by simp only [tsize, osize]; omega) v2 rest
              hwt hsok hfok
            rw [encode_resultok_some]
            constructor
            · simp [ha]
            · simp only [receiveContext, List.cons_append, hb]
      case ResultErr nested =>
        cases nested with
        | none =>
          cases err with
          | some t => simp [wellTypedPayload] at hwt
          | none =>
            refine ⟨by simp [encode], ?_⟩
            simp [encode, receiveContext]
        | some v2 =>
          cases err with
          | none => simp [wellTypedPayload] at hwt
          | some t =>
            simp only [wellTypedPayload] at hwt
            rw [noF32Opt] at hferr
            rw [syncTyOpt] at hserr
            obtain ⟨ha, hb⟩ := IH t (by simp only [tsize, osize]; omega) v2 rest
              hwt hserr hferr
            rw [encode_resulterr_some]
            constructor
            · simp [ha]
            · simp only [receiveContext, List.cons_append, hb]
    | Flags =>
      cases v <;> simp only [wellTyped, decide_eq_true_eq] at hwt <;>
        try exact absurd hwt Bool.false_ne_true
      case Flags n =>
        refine ⟨by simp [encode], ?_⟩
        simp only [encode, receiveContext,
          leb128.readUnsigned_writeUnsigned n rest (by omega)]
    | Future t =>
      rw [syncTy] at hsync
      exact absurd hsync Bool.false_ne_true
    | Stream t =>
      rw [syncTy] at hsync
      exact absurd hsync Bool.false_ne_true
    | Resource r =>
      cases r with
      | Pollable =>
        rw [syncTy] at hsync
        exact absurd hsync Bool.false_ne_true
      | InputStream =>
        rw [syncTy] at hsync
        exact absurd hsync Bool.false_ne_true
      | OutputStream =>
        cases v <;> simp only [wellTyped] at hwt <;>
          try exact absurd hwt Bool.false_ne_true
        case String str =>
          rw [Bool.and_eq_true, decide_eq_true_eq] at hwt
          refine ⟨by simp [encode], ?_⟩
          have h := rt_string_raw str rest hwt.1 hwt.2
          simp only [encode]
          rw [receiveContext]
          exact h
      | Dynamic =>
        cases v <;> simp only [wellTyped] at hwt <;>
          try exact absurd hwt Bool.false_ne_true
        case String str =>
          rw [Bool.and_eq_true, decide_eq_true_eq] at hwt
          refine ⟨by simp [encode], ?_⟩
          have h := rt_string_raw str rest hwt.1 hwt.2
          simp only [encode]
          rw [receiveContext]
          exact h

/-- Specification of the subscription planner at one type: the planner
yields a subscription exactly when the type's async skeleton is nonempty,
and any subscription it yields has a descendant async leaf at every node
(stated as `hasLeaf` at the root plus the recursive `pruned`
invariant). -/
def SubSpec (ty : Ty) : Prop :=
  ∀ subject : Subject,
    ((subscribe_async subject ty).isSome = tyAsync ty) ∧
    ∀ t, subscribe_async subject ty = some t →
      hasLeaf t = true ∧ pruned t = true

theorem tsize_mem_cases (cs : List (Option Ty)) (t : Ty) (h : some t ∈ cs) :
    tsize t < tsizeCases cs := by
  induction cs with
  | nil => cases h
  | cons c cs ih =>
    rcases List.mem_cons.mp h with h | h
    · subst h
      simp only [tsizeCases, osize]
      omega
    · have := ih h
      simp only [tsizeCases]
      omega

theorem subscribeIter_spec (ts : List Ty) (h : ∀ t ∈ ts, SubSpec t) :
    ∀ (subject : Subject) (i : Nat),
      ((subscribeIter subject i ts).any Option.isSome = tyAsyncList ts) ∧
      anyLeaf (subscribeIter subject i ts) = tyAsyncList ts ∧
      allPruned (subscribeIter subject i ts) = true := by
  induction ts with
  | nil =>
    intro subject i
    simp [subscribeIter, tyAsyncList, anyLeaf, allPruned]
  | cons t ts ih =>
    intro subject i
    obtain ⟨h1, h2, h3⟩ := ih (fun u hu => h u (List.mem_cons_of_mem t hu))
      subject (i + 1)
    obtain ⟨hsome, hsub⟩ := h t (List.mem_cons_self t ts) (subject.child (some i))
    rw [subscribeIter]
    cases hs : subscribe_async (subject.child (some i)) t with
    | none =>
      rw [hs] at hsome
      refine ⟨?_, ?_, ?_⟩
      · simp only [List.any_cons, h1, tyAsyncList, ← hsome]
        all_goals simp
      · simp only [anyLeaf, optLeaf, h2, tyAsyncList, ← hsome]
        all_goals simp
      · simp only [allPruned, optPruned, h3]
        all_goals simp
    | some u =>
      rw [hs] at hsome
      obtain ⟨hleaf, hpr⟩ := hsub u hs
      refine ⟨?_, ?_, ?_⟩
      · simp only [List.any_cons, h1, tyAsyncList, ← hsome]
        all_goals simp
      · simp only [anyLeaf, optLeaf, h2, tyAsyncList, ← hsome, hleaf]
        all_goals simp
      · simp only [allPruned, optPruned, h3, hpr]
        all_goals simp

theorem subscribeIterOpt_spec (cs : List (Option Ty))
    (h : ∀ t, some t ∈ cs → SubSpec t) :
    ∀ (subject : Subject) (i : Nat),
      ((subscribeIterOpt subject i cs).any Option.isSome = tyAsyncCases cs) ∧
      anyLeaf (subscribeIterOpt subject i cs) = tyAsyncCases cs ∧
      allPruned (subscribeIterOpt subject i cs) = true := by
  induction cs with
  | nil =>
    intro subject i
    simp [subscribeIterOpt, tyAsyncCases, anyLeaf, allPruned]
  | cons c cs ih =>
    intro subject i
    obtain ⟨h1, h2, h3⟩ := ih (fun u hu => h u (List.mem_cons_of_mem c hu))
      subject (i + 1)
    cases c with
    | none =>
      rw [subscribeIterOpt]
      refine ⟨?_, ?_, ?_⟩
      · simp only [List.any_cons, h1, tyAsyncCases, tyAsyncOpt]
        all_goals simp
      · simp only [anyLeaf, optLeaf, h2, tyAsyncCases, tyAsyncOpt]
        all_goals simp
      · simp only [allPruned, optPruned, h3]
        all_goals simp
    | some t =>
      rw [subscribeIterOpt]
      obtain ⟨hsome, hsub⟩ := h t (List.mem_cons_self _ _) (subject.child (some i))
      cases hs : subscribe_async (subject.child (some i)) t with
      | none =>
        rw [hs] at hsome
        refine ⟨?_, ?_, ?_⟩
        · simp only [List.any_cons, h1, tyAsyncCases, tyAsyncOpt, ← hsome]
          all_goals simp
        · simp only [anyLeaf, optLeaf, h2, tyAsyncCases, tyAsyncOpt, ← hsome]
          all_goals simp
        · simp only [allPruned, optPruned, h3]
          all_goals simp
      | some u =>
        rw [hs] at hsome
        obtain ⟨hleaf, hpr⟩ := hsub u hs
        refine ⟨?_, ?_, ?_⟩
        · simp only [List.any_cons, h1, tyAsyncCases, tyAsyncOpt, ← hsome]
          all_goals simp
        · simp only [anyLeaf, optLeaf, h2, tyAsyncCases, tyAsyncOpt, ← hsome,
            hleaf]
          all_goals simp
        · simp only [allPruned, optPruned, h3, hpr]
          all_goals simp

theorem subscribe_spec : ∀ N ty, tsize ty ≤ N → SubSpec ty := by
  intro N
  induction N using Nat.strong_induction_on with
  | _ N ih =>
    intro ty hsz subject
    have IH : ∀ ty2, tsize ty2 < tsize ty → SubSpec ty2 := fun ty2 hlt =>
      ih (tsize ty2) (by omega) ty2 (Nat.le_refl _)
    clear ih hsz
    cases ty with
    | Bool =>
      exact ⟨by simp [subscribe_async, tyAsync],
        fun t ht => by simp [subscribe_async] at ht⟩
    | U8 =>
      exact ⟨by simp [subscribe_async, tyAsync],
        fun t ht => by simp [subscribe_async] at ht⟩
    | U16 =>
      exact ⟨by simp [subscribe_async, tyAsync],
        fun t ht => by simp [subscribe_async] at ht⟩
    | U32 =>
      exact ⟨by simp [subscribe_async, tyAsync],
        fun t ht => by simp [subscribe_async] at ht⟩
    | U64 =>
      exact ⟨by simp [subscribe_async, tyAsync],
        fun t ht => by simp [subscribe_async] at ht⟩
    | S8 =>
      exact ⟨by simp [subscribe_async, tyAsync],
        fun t ht => by simp [subscribe_async] at ht⟩
    | S16 =>
      exact ⟨by simp [subscribe_async, tyAsync],
        fun t ht => by simp [subscribe_async] at ht⟩
    | S32 =>
      exact ⟨by simp [subscribe_async, tyAsync],
        fun t ht => by simp [subscribe_async] at ht⟩
    | S64 =>
      exact ⟨by simp [subscribe_async, tyAsync],
        fun t ht => by simp [subscribe_async] at ht⟩
    | Float32 =>
      exact ⟨by simp [subscribe_async, tyAsync],
        fun t ht => by simp [subscribe_async] at ht⟩
    | Float64 =>
      exact ⟨by simp [subscribe_async, tyAsync],
        fun t ht => by simp [subscribe_async] at ht⟩
    | Char =>
      exact ⟨by simp [subscribe_async, tyAsync],
        fun t ht => by simp [subscribe_async] at ht⟩
    | String =>
      exact ⟨by simp [subscribe_async, tyAsync],
        fun t ht => by simp [subscribe_async] at ht⟩
    | Enum =>
      exact ⟨by simp [subscribe_async, tyAsync],
        fun t ht => by simp [subscribe_async] at ht⟩
    | Flags =>
      exact ⟨by simp [subscribe_async, tyAsync],
        fun t ht => by simp [subscribe_async] at ht⟩
    | List t =>
      obtain ⟨h1, h2⟩ := IH t (by simp only [tsize]; omega) (subject.child none)
      rw [subscribe_async]
      cases hs : subscribe_async (subject.child none) t with
      | none =>
        rw [hs] at h1
        refine ⟨?_, ?_⟩
        · simp only [tyAsync, ← h1]
          all_goals simp
        · intro u hu
          simp at hu
      | some w =>
        rw [hs] at h1
        obtain ⟨hleaf, hpr⟩ := h2 w hs
        refine ⟨?_, ?_⟩
        · simp only [tyAsync, ← h1]
          all_goals simp
        · intro u hu
          simp at hu
          subst hu
          exact ⟨by simp [hasLeaf, hleaf], by simp [pruned, hpr]⟩
    | Record ts =>
      have hspec : ∀ u ∈ ts, SubSpec u := fun u hu =>
        IH u (by have := tsize_mem ts u hu; simp only [tsize]; omega)
      obtain ⟨h1, h2, h3⟩ := subscribeIter_spec ts hspec subject 0
      simp only [subscribe_async]
      cases htl : tyAsyncList ts with
      | false =>
        rw [htl] at h1 h2
        refine ⟨?_, ?_⟩
        · rw [if_neg (by simp [h1])]
          simp [tyAsync, htl]
        · intro u hu
          rw [if_neg (by simp [h1])] at hu
          cases hu
      | true =>
        rw [htl] at h1 h2
        refine ⟨?_, ?_⟩
        · rw [if_pos h1]
          simp [tyAsync, htl]
        · intro u hu
          rw [if_pos h1] at hu
          injection hu with hu
          subst hu
          exact ⟨by simp only [hasLeaf]; exact h2,
            by simp only [pruned, h1, h3]; simp⟩
    | Tuple ts =>
      have hspec : ∀ u ∈ ts, SubSpec u := fun u hu =>
        IH u (by have := tsize_mem ts u hu; simp only [tsize]; omega)
      obtain ⟨h1, h2, h3⟩ := subscribeIter_spec ts hspec subject 0
      simp only [subscribe_async]
      cases htl : tyAsyncList ts with
      | false =>
        rw [htl] at h1 h2
        refine ⟨?_, ?_⟩
        · rw [if_neg (by simp [h1])]
          simp [tyAsync, htl]
        · intro u hu
          rw [if_neg (by simp [h1])] at hu
          cases hu
      | true =>
        rw [htl] at h1 h2
        refine ⟨?_, ?_⟩
        · rw [if_pos h1]
          simp [tyAsync, htl]
        · intro u hu
          rw [if_pos h1] at hu
          injection hu with hu
          subst hu
          exact ⟨by simp only [hasLeaf]; exact h2,
            by simp only [pruned, h1, h3]; simp⟩
    | Variant cs =>
      have hspec : ∀ u, some u ∈ cs → SubSpec u := fun u hu =>
        IH u (by have := tsize_mem_cases cs u hu; simp only [tsize]; omega)
      obtain ⟨h1, h2, h3⟩ := subscribeIterOpt_spec cs hspec subject 0
      simp only [subscribe_async]
      cases htl : tyAsyncCases cs with
      | false =>
        rw [htl] at h1 h2
        refine ⟨?_, ?_⟩
        · rw [if_neg (by simp [h1])]
          simp [tyAsync, htl]
        · intro u hu
          rw [if_neg (by simp [h1])] at hu
          cases hu
      | true =>
        rw [htl] at h1 h2
        refine ⟨?_, ?_⟩
        · rw [if_pos h1]
          simp [tyAsync, htl]
        · intro u hu
          rw [if_pos h1] at hu
          injection hu with hu
          subst hu
          exact ⟨by simp only [hasLeaf]; exact h2,
            by simp only [pruned, h1, h3]; simp⟩
    | Option t =>
      obtain ⟨h1, h2⟩ := IH t (by simp only [tsize]; omega)
        (subject.child (some 1))
      rw [subscribe_async]
      cases hs : subscribe_async (subject.child (some 1)) t with
      | none =>
        rw [hs] at h1
        refine ⟨?_, ?_⟩
        · simp only [tyAsync, ← h1]
          all_goals simp
        · intro u hu
          simp at hu
      | some w =>
        rw [hs] at h1
        obtain ⟨hleaf, hpr⟩ := h2 w hs
        refine ⟨?_, ?_⟩
        · simp only [tyAsync, ← h1]
          all_goals simp
        · intro u hu
          simp at hu
          subst hu
          exact ⟨by simp [hasLeaf, hleaf], by simp [pruned, hpr]⟩
    | Result ok err =>
      rcases ok with _ | tOk <;> rcases err with _ | tErr
      · exact ⟨by simp [subscribe_async, tyAsync, tyAsyncOpt],
          fun t ht => by simp [subscribe_async] at ht⟩
      · obtain ⟨h1, h2⟩ := IH tErr (by simp only [tsize, osize]; omega)
          (subject.child (some 1))
        simp only [subscribe_async]
        cases hs : subscribe_async (subject.child (some 1)) tErr with
        | none =>
          rw [hs] at h1
          refine ⟨by simp [tyAsync, tyAsyncOpt, ← h1], ?_⟩
          intro u hu
          simp at hu
        | some w =>
          rw [hs] at h1
          obtain ⟨hleaf, hpr⟩ := h2 w hs
          refine ⟨by simp [tyAsync, tyAsyncOpt, ← h1], ?_⟩
          intro u hu
          simp at hu
          subst hu
          exact ⟨by simp [hasLeaf, optLeaf, hleaf],
            by simp [pruned, optPruned, hpr]⟩
      · obtain ⟨h1, h2⟩ := IH tOk (by simp only [tsize, osize]; omega)
          (subject.child (some 0))
        simp only [subscribe_async]
        cases hs : subscribe_async (subject.child (some 0)) tOk with
        | none =>
          rw [hs] at h1
          refine ⟨by simp [tyAsync, tyAsyncOpt, ← h1], ?_⟩
          intro u hu
          simp at hu
        | some w =>
          rw [hs] at h1
          obtain ⟨hleaf, hpr⟩ := h2 w hs
          refine ⟨by simp [tyAsync, tyAsyncOpt, ← h1], ?_⟩
          intro u hu
          simp at hu
          subst hu
          exact ⟨by simp [hasLeaf, optLeaf, hleaf],
            by simp [pruned, optPruned, hpr]⟩
      · obtain ⟨ho1, ho2⟩ := IH tOk (by simp only [tsize, osize]; omega)
          (subject.child (some 0))
        obtain ⟨he1, he2⟩ := IH tErr (by simp only [tsize, osize]; omega)
          (subject.child (some 1))
        simp only [subscribe_async]
        cases hso : subscribe_async (subject.child (some 0)) tOk with
        | none =>
          rw [hso] at ho1
          cases hse : subscribe_async (subject.child (some 1)) tErr with
          | none =>
            rw [hse] at he1
            refine ⟨by simp [tyAsync, tyAsyncOpt, ← ho1, ← he1], ?_⟩
            intro u hu
            simp at hu
          | some w =>
            rw [hse] at he1
            obtain ⟨hleaf, hpr⟩ := he2 w hse
            refine ⟨by simp [tyAsync, tyAsyncOpt, ← ho1, ← he1], ?_⟩
            intro u hu
            simp at hu
            subst hu
            exact ⟨by simp [hasLeaf, optLeaf, hleaf],
              by simp [pruned, optPruned, hpr]⟩
        | some w0 =>
          rw [hso] at ho1
          obtain ⟨hleaf0, hpr0⟩ := ho2 w0 hso
          cases hse : subscribe_async (subject.child (some 1)) tErr with
          | none =>
            rw [hse] at he1
            refine ⟨by simp [tyAsync, tyAsyncOpt, ← ho1, ← he1], ?_⟩
            intro u hu
            simp at hu
            subst hu
            exact ⟨by simp [hasLeaf, optLeaf, hleaf0],
              by simp [pruned, optPruned, hpr0]⟩
          | some w1 =>
            rw [hse] at he1
            obtain ⟨hleaf1, hpr1⟩ := he2 w1 hse
            refine ⟨by simp [tyAsync, tyAsyncOpt, ← ho1, ← he1], ?_⟩
            intro u hu
            simp at hu
            subst hu
            exact ⟨by simp [hasLeaf, optLeaf, hleaf0, hleaf1],
              by simp [pruned, optPruned, hpr0, hpr1]⟩
    | Future t =>
      rcases t with _ | tF
      · refine ⟨by simp [subscribe_async, tyAsync], ?_⟩
        intro u hu
        rw [subscribe_async] at hu
        injection hu with hu
        subst hu
        exact ⟨by simp [hasLeaf], by simp [pruned, optPruned]⟩
      · obtain ⟨h1, h2⟩ := IH tF (by simp only [tsize, osize]; omega)
          (subject.child (some 0))
        refine ⟨by simp [subscribe_async, tyAsync], ?_⟩
        intro u hu
        rw [subscribe_async] at hu
        injection hu with hu
        subst hu
        refine ⟨by simp [hasLeaf], ?_⟩
        simp only [pruned]
        cases hs : subscribe_async (subject.child (some 0)) tF with
        | none => simp [optPruned]
        | some w => simpa [optPruned] using (h2 w hs).2
    | Stream t =>
      rcases t with _ | tS
      · refine ⟨by simp [subscribe_async, tyAsync], ?_⟩
        intro u hu
        rw [subscribe_async] at hu
        injection hu with hu
        subst hu
        exact ⟨by simp [hasLeaf], by simp [pruned, optPruned]⟩
      · obtain ⟨h1, h2⟩ := IH tS (by simp only [tsize, osize]; omega)
          (subject.child none)
        refine ⟨by simp [subscribe_async, tyAsync], ?_⟩
        intro u hu
        rw [subscribe_async] at hu
        injection hu with hu
        subst hu
        refine ⟨by simp [hasLeaf], ?_⟩
        simp only [pruned]
        cases hs : subscribe_async (subject.child none) tS with
        | none => simp [optPruned]
        | some w => simpa [optPruned] using (h2 w hs).2
    | Resource r =>
      cases r with
      | Pollable =>
        obtain ⟨h1, h2⟩ := IH (.Future none)
          (by simp only [tsize, osize]; omega) subject
        refine ⟨?_, ?_⟩
        · rw [subscribe_async, h1]
          simp [tyAsync]
        · intro u hu
          rw [subscribe_async] at hu
          exact h2 u hu
      | InputStream =>
        obtain ⟨h1, h2⟩ := IH (.Stream (some .U8))
          (by simp only [tsize, osize]; omega) subject
        refine ⟨?_, ?_⟩
        · rw [subscribe_async, h1]
          simp [tyAsync]
        · intro u hu
          rw [subscribe_async] at hu
          exact h2 u hu
      | OutputStream =>
        exact ⟨by simp [subscribe_async, tyAsync],
          fun t ht => by simp [subscribe_async] at ht⟩
      | Dynamic =>
        exact ⟨by simp [subscribe_async, tyAsync],
          fun t ht => by simp [subscribe_async] at ht⟩

theorem demuxSubscription_none {T : Type} (s : AsyncSubscription T) :
    demuxSubscription s = none := by
  cases s <;> rfl

theorem try_unwrap_list_none {T : Type} (s : AsyncSubscription T) :
    try_unwrap_list s = none := by
  cases s <;> first
    | rfl
    | exact demuxSubscription_none _

/-- Claim C1 (amended): encoding a well-typed value of a type without
`Future`/`Stream` descendants yields no async tree, and decoding the
produced bytes with no subscription restores the value exactly,
consuming exactly the encoded bytes — provided the type contains no
`Float32` leaf, or at least 4 further bytes are buffered behind the
encoding (the `f32` receiver demands 8 buffered bytes before consuming
its 4, so the round trip as literally claimed fails at `Float32`). -/
theorem claim_C1_sync_roundtrip (ty : Ty) (v : Value) (rest : List Nat)
    (hwt : wellTyped v ty = true) (hsync : syncTy ty = true)
    (hbuf : noF32 ty = true ∨ 4 ≤ rest.length) :
    (encode v).2 = none ∧
      receiveContext ty ((encode v).1 ++ rest) none = some (v, rest) :=
  roundtrip_types (tsize ty) ty (Nat.le_refl _) v rest hwt hsync hbuf

/-- Counterexample to C1 as stated: `Value::Float32 0` is well typed at
the sync type `Float32` and encodes to exactly its 4 little-endian
bytes with no async tree, yet decoding those very bytes with no
subscription fails, because the `f32` receiver blocks for 8 buffered
bytes before consuming 4. -/
theorem claim_C1_counterexample :
    wellTyped (.Float32 0) .Float32 = true ∧ syncTy .Float32 = true ∧
    encode (.Float32 0) = ([0, 0, 0, 0], none) ∧
    receiveContext .Float32 ([0, 0, 0, 0] ++ []) none = none := by
  refine ⟨rfl, rfl, rfl, ?_⟩
  simp [receiveContext]

/-- Concrete instantiation of the amended C1 round trip at a byte
value. -/
theorem claim_C1_witness :
    (wellTyped (.U8 7) .U8 = true ∧ syncTy .U8 = true ∧
      (noF32 .U8 = true ∨ 4 ≤ ([9] : List Nat).length)) ∧
    ((encode (.U8 7)).2 = none ∧
      receiveContext .U8 ((encode (.U8 7)).1 ++ [9]) none =
        some (.U8 7, [9])) :=
  ⟨⟨rfl, rfl, Or.inl rfl⟩,
    claim_C1_sync_roundtrip .U8 (.U8 7) [9] rfl rfl (Or.inl rfl)⟩

/-- Claim C2: the subscription planner returns no subscription exactly
when the type's async skeleton is empty (`Pollable` read as
`Future(None)`, `InputStream` as `Stream(Some(U8))`, output and dynamic
resources as non-async), and any subscription tree it returns has a
descendant `Future`/`Stream` leaf at its root and satisfies the
recursive pruning invariant (every compound node keeps a present child,
itself pruned), so every node has a descendant async leaf. -/
theorem claim_C2_subscribe_pruned (subject : Subject) (ty : Ty) :
    (subscribe_async subject ty = none ↔ tyAsync ty = false) ∧
    ∀ t, subscribe_async subject ty = some t →
      hasLeaf t = true ∧ pruned t = true := by
  obtain ⟨h1, h2⟩ := subscribe_spec (tsize ty) ty (Nat.le_refl _) subject
  refine ⟨?_, h2⟩
  constructor
  · intro h
    rw [h] at h1
    simpa using h1.symm
  · intro h
    cases hs : subscribe_async subject ty with
    | none => rfl
    | some u =>
      rw [hs] at h1
      rw [h] at h1
      simp at h1

/-- Concrete instantiation of C2 at a unit future type. -/
theorem claim_C2_witness :
    hasLeaf (AsyncSubscription.Future ([] : Subject) none) = true ∧
    pruned (AsyncSubscription.Future ([] : Subject) none) = true :=
  (claim_C2_subscribe_pruned [] (.Future none)).2 (.Future [] none)
    (by rw [subscribe_async])

/-- Claim C3: encoding any `Value::Stream` writes exactly the single
header byte 0 to the primary payload and hands the stream to the async
tree; in particular it never writes the inline-element form (header 1)
or a bulk-length form. -/
theorem claim_C3_stream_encode (items : List (Option Value)) :
    encode (.Stream items) = ([0], some (.Stream items)) := rfl

/-- Claim C4 (amended): after a non-zero stream header the decoders do
not uniformly read a terminating byte 0. The typed stream receiver
(`Box<dyn Stream>` at `u8`) after the inline header 1 only requires one
further buffered byte, returning without consuming or checking it, and
only the bulk arm (header at least 2) consumes a byte and requires it to
be 0; the `Value` stream decoder reads no terminator at all in either
its inline or its bulk arm. -/
theorem claim_C4_stream_terminator (c : Chunks) (el e1 e2 b : Nat)
    (rest : List Nat) :
    receiveStreamTypedU8 (1 :: el :: rest) (some (.Stream c none)) =
      (if 1 ≤ rest.length then some ([el], rest) else none) ∧
    receiveStreamTypedU8 (2 :: e1 :: e2 :: b :: rest)
      (some (.Stream c none)) =
      (if b = 0 then some ([e1, e2], rest) else none) ∧
    receiveContext (.Stream (some .U8)) (1 :: el :: rest)
      (some (.Stream c none)) = some (.Stream [some (.U8 el)], rest) ∧
    receiveContext (.Stream (some .U8)) (2 :: e1 :: e2 :: rest)
      (some (.Stream c none)) =
      some (.Stream [some (.U8 e1), some (.U8 e2)], rest) := by
  refine ⟨?_, ?_, ?_, ?_⟩
  · simp [receiveStreamTypedU8, try_unwrap_stream]
  · rcases b with _ | b <;>
      simp [receiveStreamTypedU8, try_unwrap_stream, leb128.readUnsigned,
        leb128.readUnsignedAux, elementsTypedU8]
  · simp [receiveContext, try_unwrap_stream, demuxSelect]
  · simp [receiveContext, try_unwrap_stream, demuxSelect,
      leb128.readUnsigned, leb128.readUnsignedAux, receiveListElements]

/-- Counterexample to C4 as stated: the `Value` stream decoder accepts
an inline element with no terminating byte anywhere in the payload, and
the typed stream receiver returns after an inline element leaving the
following non-zero byte unconsumed and unchecked. -/
theorem claim_C4_counterexample :
    receiveContext (.Stream (some .U8)) [1, 7] (some (.Stream [] none)) =
      some (.Stream [some (.U8 7)], []) ∧
    receiveStreamTypedU8 [1, 7, 9, 9] (some (.Stream [] none)) =
      some ([7], [9, 9]) := by
  constructor
  · simp [receiveContext, try_unwrap_stream, demuxSelect]
  · rfl

/-- Claim C5: transmitting an `AsyncValue::Future` that yields a value
encodes it into a fresh buffer, transmits the value's nested async parts
on `child(Some(0))`, and publishes the buffer on the given subject; a
future that yields nothing publishes an empty payload on the subject. -/
theorem claim_C5_transmit_future (subject : Subject) (v : Value) :
    transmit_async subject (.Future (some v)) =
      (match (encode v).2 with
       | some tx => transmit_async (subject.child (some 0)) tx
       | none => []) ++ [(subject, (encode v).1)] ∧
    transmit_async subject (.Future none) = [(subject, [])] := by
  constructor
  · rw [transmit_async]
    rcases h : (encode v).2 with _ | tx <;> simp
  · rw [transmit_async]

/-- Claim C6: when the error subject wins the invocation race and its
payload decodes as a length-prefixed UTF-8 string, the call fails with
exactly that string, whatever the result subject's payload holds. -/
theorem claim_C6_error_subject (resultTys : List Ty) (resultData : List Nat)
    (resultSubs : Option RSub) (errorData s rest : List Nat)
    (h : receiveString errorData = some (s, rest)) :
    invokeOutcome .err resultTys resultData resultSubs errorData =
      .error (some s) := by
  simp [invokeOutcome, h]

/-- Concrete instantiation of C6: the error payload carrying the string
"bad" fails the call with message "bad" even though a result payload is
available. -/
theorem claim_C6_witness :
    invokeOutcome .err [.U8] [7] none [3, 98, 97, 100] =
      .error (some [98, 97, 100]) :=
  claim_C6_error_subject [.U8] [7] none [3, 98, 97, 100] [98, 97, 100] []
    rfl

/-- Claim C7: decoding an option, a result, or a future value fails
outright (no partial value) whenever the one-byte discriminant is
neither 0 nor 1, for every payload tail and every subscription
argument. -/
theorem claim_C7_invalid_discriminant (t : Ty) (ok err ft : Option Ty)
    (b : Nat) (rest : List Nat) (sub : Option RSub) (hb : 2 ≤ b) :
    receiveContext (.Option t) (b :: rest) sub = none ∧
    receiveContext (.Result ok err) (b :: rest) sub = none ∧
    receiveContext (.Future ft) (b :: rest) sub = none := by
  obtain ⟨bp, rfl⟩ : ∃ bp, b = bp + 2 := ⟨b - 2, by omega⟩
  refine ⟨?_, ?_, ?_⟩
  · simp [receiveContext]
  · rcases sub with _ | s
    · simp [receiveContext]
    · rcases h : try_unwrap_result s with _ | ⟨os, es⟩ <;>
        simp [receiveContext, h]
  · rcases sub with _ | s
    · simp [receiveContext]
    · rcases h : try_unwrap_future s with _ | ⟨subscriber, nested⟩ <;>
        rcases ft with _ | tf <;> simp [receiveContext, h]

/-- Concrete instantiation of C7 at discriminant byte 2. -/
theorem claim_C7_witness :
    receiveContext (.Option .U8) [2] none = none ∧
    receiveContext (.Result none none) [2] none = none ∧
    receiveContext (.Future none) [2] none = none :=
  claim_C7_invalid_discriminant .U8 none none none 2 [] none (by omega)

/-- Claim C8: the `f32` receiver demands 8 buffered bytes — failing when
the stream ends with fewer — but then consumes only 4, returning the
IEEE-754 bit pattern of those 4 little-endian bytes and leaving the
remaining bytes buffered. -/
theorem claim_C8_f32_buffering (input : List Nat) :
    (8 ≤ input.length →
      receiveContext .Float32 input none =
        some (.Float32 (leWord (input.take 4)), input.drop 4)) ∧
    (input.length < 8 →
      receiveContext .Float32 input none = none) := by
  constructor
  · intro h
    simp only [receiveContext]
    rw [if_pos h]
  · intro h
    simp only [receiveContext]
    rw [if_neg (by omega)]

/-- Concrete instantiation of C8: with 8 bytes buffered the first 4
little-endian bytes give the bit pattern and the last 4 stay buffered;
with only 3 bytes the decode fails. -/
theorem claim_C8_witness :
    receiveContext .Float32 [1, 0, 0, 0, 5, 6, 7, 8] none =
      some (.Float32 1, [5, 6, 7, 8]) ∧
    receiveContext .Float32 [1, 2, 3] none = none := by
  constructor
  · have h := (claim_C8_f32_buffering [1, 0, 0, 0, 5, 6, 7, 8]).1 (by decide)
    simpa [leWord, leBytes] using h
  · exact (claim_C8_f32_buffering [1, 2, 3]).2 (by decide)

/-- Claim C9: decoding a bool consumes exactly its one byte and never
fails on the byte's value, yielding true exactly for byte 1 and false
for every other byte value. -/
theorem claim_C9_bool_byte (b : Nat) (rest : List Nat) (sub : Option RSub) :
    receiveContext .Bool (b :: rest) sub = some (.Bool (b == 1), rest) := by
  simp [receiveContext]

/-- Claim C10: converting any subscription to a demultiplexer fails
(every arm of the conversion bails), so unwrapping a list subscription
fails, and decoding a list value with a present subscription node always
fails before decoding any element. -/
theorem claim_C10_list_demux (t : Ty) (input : List Nat) (s : RSub) :
    demuxSubscription s = none ∧ try_unwrap_list s = none ∧
    receiveContext (.List t) input (some s) = none := by
  refine ⟨demuxSubscription_none s, try_unwrap_list_none s, ?_⟩
  simp only [receiveContext, try_unwrap_list_none s]

end Wrpc
